import Mathlib

set_option linter.dupNamespace false
set_option linter.unusedSectionVars false

/-!
Work-stealing recommendation scheduler (`recommend.go`).

A shallow embedding of `recommend.go`:

* the numeric task function (`CartFeatures`, `Similarity`, `FindTopSimilarItems`,
  `processTask`), written over an arbitrary type `F` with the arithmetic operations,
  which stands for `float64`; the theorems about numeric values instantiate `F` with a
  linearly ordered field (the reals), and `Float64` is a model of the `float64` values
  with infinities and not-a-number;
* the scheduler (`WorkStealingScheduler.Run`, `workerProcessTasks`) as a transition
  system whose steps are the atomic deque operations and the channel send.

Go maps are finite sets of keys with a value function, slices are lists, and a
runtime panic is the value `none`.
-/

namespace Recommend

/-! ## Data model -/

/-- A Go `map[string]V`: the finite set of keys present and the value stored at each
key (the value function is irrelevant outside `keys`). -/
structure GoMap (V : Type) where
  keys : Finset String
  val : String → V

namespace GoMap

variable {V : Type}

/-- The empty map, as in `make(map[string]V)`. -/
def empty [Zero V] : GoMap V := ⟨∅, fun _ => 0⟩

/-- The map index expression `m[k]`: the zero value when the key is absent. -/
def get [Zero V] (m : GoMap V) (k : String) : V :=
  if k ∈ m.keys then m.val k else 0

/-- The map assignment `m[k] = v`. -/
def set (m : GoMap V) (k : String) (v : V) : GoMap V :=
  ⟨insert k m.keys, Function.update m.val k v⟩

/-- The keys visited by `for key := range m`. Go leaves the order unspecified; the
embedding visits them in increasing order. -/
def range (m : GoMap V) : List String :=
  m.keys.sort (fun a b => a ≤ b)

/-- A map literal `map[string]V{k1: v1, ...}`. -/
def ofList [Zero V] (l : List (String × V)) : GoMap V :=
  l.foldl (fun m kv => m.set kv.1 kv.2) empty

end GoMap

/-- Modelled from the spec: the type `deque.Content` is declared in package `deque`,
which is not among the sources; its fields are the ones `recommend.go` uses. -/
structure Content (F : Type) where
  ID : String
  Features : GoMap F

/-- Modelled from the spec: the type `deque.ShopingCart` is declared in package
`deque`, which is not among the sources; its fields are the ones `recommend.go` uses. -/
structure ShopingCart (F : Type) where
  ID : String
  Items : List (Content F)

/-- Modelled from the spec: the type `deque.Task` (the work item: a stable identifier
and a payload) is declared in package `deque`, which is not among the sources; its
fields are the ones `recommend.go` uses. -/
structure Task (F : Type) where
  ID : Int
  Task : ShopingCart F

/-- Modelled from the spec: the type `deque.Deque` is declared in package `deque`,
which is not among the sources. It is an ordered sequence of work items with two ends;
every operation takes effect atomically. The head of `items` is the front. -/
structure Deque (α : Type) where
  items : List α

namespace Deque

variable {α : Type}

/-- Modelled from the spec: `Deque.PushBack`, missing from the sources, inserts at the
back (used by the initial distribution). -/
def PushBack (d : Deque α) (x : α) : Deque α := ⟨d.items ++ [x]⟩

/-- Modelled from the spec: `Deque.PushFront`, missing from the sources, inserts at the
front (the owner end). -/
def PushFront (d : Deque α) (x : α) : Deque α := ⟨x :: d.items⟩

/-- Modelled from the spec: `Deque.PopFront`, missing from the sources, removes and
returns the front item, or reports empty (`none`) without blocking. -/
def PopFront (d : Deque α) : Option (α × Deque α) :=
  match d.items with
  | [] => none
  | x :: rest => some (x, ⟨rest⟩)

/-- Modelled from the spec: `Deque.PopBack`, missing from the sources, removes and
returns the back item (the thief end), or reports empty (`none`) without blocking. -/
def PopBack (d : Deque α) : Option (α × Deque α) :=
  match d.items.getLast? with
  | none => none
  | some x => some (x, ⟨d.items.dropLast⟩)

end Deque

/-- The struct `Worker`. -/
structure Worker (F : Type) where
  ID : Int
  Deque : Deque (Task F)

/-- The struct `WorkStealingScheduler`. -/
structure WorkStealingScheduler (F : Type) where
  Workers : List (Worker F)

/-- The struct `result`. -/
structure result (F : Type) where
  ID : String
  SimilarityScore : F

/-- The function `newWorker`: the deque is the zero value, an empty deque. -/
def newWorker {F : Type} (id : Int) : Worker F := { ID := id, Deque := ⟨[]⟩ }

/-- The library and runtime behaviour `recommend.go` relies on. -/
structure GoEnv (F : Type) where
  /-- The function `math.Sqrt`. -/
  sqrt : F → F
  /-- The function `sort.Slice` applied to a slice of `result` and a `less` function. -/
  sortSlice : (result F → result F → Bool) → List (result F) → List (result F)
  /-- The capacity the runtime gives a slice that `append` has grown to a length. -/
  growCap : Nat → Nat

/-! ## The task function -/

section Numeric

variable {F : Type} [Zero F] [Add F] [Mul F] [Div F] [Pow F ℕ] [NatCast F] [DecidableEq F]
  [LT F] [DecidableRel (fun a b : F => a < b)]

/-- The function `contains`. -/
def contains (items : List (Content F)) (itemID : String) : Bool :=
  match items with
  | [] => false
  | item :: rest => if item.ID = itemID then true else contains rest itemID

/-- The function `CartFeatures`: per key, the sum of the values over the cart items
that have the key, divided by the number of those items. -/
def CartFeatures (cart : ShopingCart F) : GoMap F :=
  let acc : GoMap F × GoMap Nat :=
    cart.Items.foldl
      (fun acc item =>
        item.Features.range.foldl
          (fun acc key =>
            (acc.1.set key (acc.1.get key + item.Features.get key),
             acc.2.set key (acc.2.get key + 1)))
          acc)
      (GoMap.empty, GoMap.empty)
  acc.1.range.foldl
    (fun cartFeatures key => cartFeatures.set key (cartFeatures.get key / (acc.2.get key : F)))
    acc.1

/-- The three accumulators of the loop of `Similarity` after it has visited `keys`:
`(dotProduct, magnitude1, magnitude2)`. -/
def Similarity.loop (features1 features2 : GoMap F) (keys : List String) : F × F × F :=
  keys.foldl
    (fun acc key =>
      (acc.1 + features1.get key * features2.get key,
       acc.2.1 + features1.get key ^ 2,
       acc.2.2 + features2.get key ^ 2))
    (0, 0, 0)

/-- The function `Similarity`; `sqrt` is `math.Sqrt`. -/
def Similarity (sqrt : F → F) (features1 features2 : GoMap F) : F :=
  let acc := Similarity.loop features1 features2 features1.range
  let dotProduct := acc.1
  let magnitude1 := sqrt acc.2.1
  let magnitude2 := sqrt acc.2.2
  if magnitude1 = 0 ∨ magnitude2 = 0 then 0
  else dotProduct / (magnitude1 * magnitude2)

/-- The `less` function handed to `sort.Slice` in `FindTopSimilarItems`. -/
def scoreLess (a b : result F) : Bool := decide (a.SimilarityScore > b.SimilarityScore)

/-- The capacity of the slice `similarItems` once the loop of `FindTopSimilarItems` has
appended `len` items to the nil slice: a nil slice has capacity 0, and a slice that was
appended to has at least the capacity of its length. -/
def sliceCap (env : GoEnv F) (len : Nat) : Nat :=
  if len = 0 then 0 else max len (env.growCap len)

/-- The slice expression `s[:topN]` on a slice with contents `s` and capacity `cap`:
a panic (`none`) unless `0 ≤ topN ≤ cap`; positions past the length hold zero values. -/
def sliceTo (s : List (result F)) (cap : Nat) (topN : Int) : Option (List (result F)) :=
  if topN < 0 ∨ (cap : Int) < topN then none
  else some (s.take topN.toNat ++ List.replicate (topN.toNat - s.length) ⟨"", 0⟩)

/-- The slice `similarItems` built by the loop of `FindTopSimilarItems`, before it is
sorted. -/
def candidates (sqrt : F → F) (user : ShopingCart F) (content : List (Content F)) :
    List (result F) :=
  let user_feature := CartFeatures user
  content.foldl
    (fun similarItems item =>
      if !contains user.Items item.ID then
        similarItems ++ [⟨item.ID, Similarity sqrt user_feature item.Features⟩]
      else similarItems)
    []

/-- The function `FindTopSimilarItems`; `none` is the panic of the slice expression. -/
def FindTopSimilarItems (env : GoEnv F) (user : ShopingCart F) (content : List (Content F))
    (topN : Int) : Option (List (result F)) :=
  let similarItems := candidates env.sqrt user content
  let sorted := env.sortSlice scoreLess similarItems
  sliceTo sorted (sliceCap env similarItems.length) topN

/-- The function `strconv.Itoa`. -/
def Itoa (i : Int) : String := toString i

/-- The function `processTask`: the lines it prints and the string it returns; `none`
when `FindTopSimilarItems` panics. -/
def processTask (env : GoEnv F) (task : Task F) (workerId : Int) (content : List (Content F)) :
    Option (List String × String) :=
  match FindTopSimilarItems env task.Task content 3 with
  | none => none
  | some topSimilarItems =>
    some (topSimilarItems.map (fun item => item.ID),
          Itoa workerId ++ "Processing Task" ++ Itoa task.ID)

end Numeric

/-! ## The scheduler -/

section Scheduler

variable {F : Type} [LinearOrderedField F]

/-- One iteration of the distribution loop of `Run` with loop index `i`:
`worker := &ws.Workers[i%len(ws.Workers)]; worker.Deque.PushBack(task)`.
The value `none` is a panic (division by zero or index out of range). -/
def Run.distributeIter (ws : WorkStealingScheduler F) (i : Nat) (task : Task F) :
    Option (WorkStealingScheduler F) :=
  if ws.Workers.length = 0 then none
  else
    match ws.Workers[i % ws.Workers.length]? with
    | none => none
    | some worker =>
      some ⟨ws.Workers.set (i % ws.Workers.length)
        { worker with Deque := worker.Deque.PushBack task }⟩

/-- The distribution loop of `Run` from loop index `i` on, over the tasks not yet
visited. -/
def Run.distributeFrom (i : Nat) : List (Task F) → WorkStealingScheduler F →
    Option (WorkStealingScheduler F)
  | [], ws => some ws
  | task :: rest, ws =>
    match Run.distributeIter ws i task with
    | none => none
    | some ws1 => Run.distributeFrom (i + 1) rest ws1

/-- The distribution loop of `Run`: `for i, task := range *tasks`. -/
def Run.distribute (ws : WorkStealingScheduler F) (tasks : List (Task F)) :
    Option (WorkStealingScheduler F) :=
  Run.distributeFrom 0 tasks ws

/-- Where a worker goroutine stands in the loop of `workerProcessTasks`, with the
local variable that is live there. -/
inductive Pc (F : Type) where
  /-- At the head of the loop, about to call `worker.Deque.PopFront()`. -/
  | top : Pc F
  /-- After `PopFront` reported empty, about to draw a victim and call `PopBack`. -/
  | seeking : Pc F
  /-- After `PopBack` returned `stolenTask`, about to call `PushFront(stolenTask)`. -/
  | stolen (stolenTask : Task F) : Pc F
  /-- After `PopFront` returned `task`, about to send `processTask(task, ...)`. -/
  | holding (task : Task F) : Pc F

/-- The task a worker has popped and neither sent nor pushed back yet. -/
def Pc.inHand : Pc F → List (Task F)
  | .top => []
  | .seeking => []
  | .stolen t => [t]
  | .holding t => [t]

/-- One send on the result channel: the string sent, with the worker that sent it and
the task it was computed from. -/
structure Emission (F : Type) where
  worker : Int
  task : Task F
  value : String

/-- The state of a call of `Run`. -/
structure RunState (F : Type) where
  /-- The receiver `ws`: the workers and their deques. -/
  ws : WorkStealingScheduler F
  /-- The index `i` of the distribution loop. -/
  next : Nat
  /-- The position of each worker goroutine, by worker index. -/
  pcs : List (Pc F)
  /-- The sends on the channel `result`, oldest first. -/
  sent : List (Emission F)
  /-- Whether a goroutine has panicked, which ends the program. -/
  panicked : Bool

/-- The atomic steps of a run. -/
inductive Action where
  /-- One iteration of the distribution loop of `Run`. -/
  | distribute : Action
  /-- Worker `w` calls `PopFront` on its own deque. -/
  | popFront (w : Nat) : Action
  /-- Worker `w` draws `otherWorkerIndex` from `rand.Intn` and, unless the IDs are
  equal, calls `PopBack` on that worker's deque. -/
  | steal (w : Nat) (otherWorkerIndex : Nat) : Action
  /-- Worker `w` calls `PushFront(stolenTask)` on its own deque. -/
  | pushFront (w : Nat) : Action
  /-- Worker `w` runs `result <- processTask(task, worker.ID, content)`. -/
  | send (w : Nat) : Action

/-- One atomic step of a call of `Run`; `none` when the step is not enabled.

* `distribute` is one iteration of the loop `for i, task := range *tasks` of `Run`.
* The other steps are the statements of the loop body of `workerProcessTasks`, run by
  the goroutine of the worker at index `w`: `popFront` is
  `task, ok := worker.Deque.PopFront()`; `steal` is the draw
  `otherWorkerIndex := rand.Intn(len(workerPool.Workers))`, the test
  `otherWorker.ID != worker.ID` and, when it holds, `otherWorker.Deque.PopBack()`;
  `pushFront` is `worker.Deque.PushFront(stolenTask)`; `send` is
  `result <- processTask(task, worker.ID, content)`. Every branch ends at the head of
  the loop again: the `for` has no exit.

`Run` starts the worker goroutines after the distribution loop, so a worker step needs
the loop to be over. A panic in any goroutine ends the program: no step is enabled in a
panicked state. The receiver of the channel is always ready, so a send never blocks for
good. -/
def step (env : GoEnv F) (tasks : List (Task F)) (content : List (Content F)) :
    Action → RunState F → Option (RunState F)
  | .distribute, s =>
    if s.panicked then none
    else
      match tasks[s.next]? with
      | none => none
      | some task =>
        match Run.distributeIter s.ws s.next task with
        | none => some { s with panicked := true }
        | some ws1 => some { s with ws := ws1, next := s.next + 1 }
  | .popFront w, s =>
    if s.panicked ∨ s.next < tasks.length then none
    else
      match s.pcs[w]?, s.ws.Workers[w]? with
      | some .top, some worker =>
        match worker.Deque.PopFront with
        | none => some { s with pcs := s.pcs.set w .seeking }
        | some (task, d) =>
          some { s with
            ws := ⟨s.ws.Workers.set w { worker with Deque := d }⟩
            pcs := s.pcs.set w (.holding task) }
      | _, _ => none
  | .steal w otherWorkerIndex, s =>
    if s.panicked ∨ s.next < tasks.length then none
    else
      match s.pcs[w]?, s.ws.Workers[w]? with
      | some .seeking, some worker =>
        match s.ws.Workers[otherWorkerIndex]? with
        | none => none
        | some otherWorker =>
          if otherWorker.ID ≠ worker.ID then
            match otherWorker.Deque.PopBack with
            | some (stolenTask, d) =>
              some { s with
                ws := ⟨s.ws.Workers.set otherWorkerIndex { otherWorker with Deque := d }⟩
                pcs := s.pcs.set w (.stolen stolenTask) }
            | none => some { s with pcs := s.pcs.set w .top }
          else some { s with pcs := s.pcs.set w .top }
      | _, _ => none
  | .pushFront w, s =>
    if s.panicked ∨ s.next < tasks.length then none
    else
      match s.pcs[w]?, s.ws.Workers[w]? with
      | some (.stolen stolenTask), some worker =>
        some { s with
          ws := ⟨s.ws.Workers.set w
            { worker with Deque := worker.Deque.PushFront stolenTask }⟩
          pcs := s.pcs.set w .top }
      | _, _ => none
  | .send w, s =>
    if s.panicked ∨ s.next < tasks.length then none
    else
      match s.pcs[w]?, s.ws.Workers[w]? with
      | some (.holding task), some worker =>
        match processTask env task worker.ID content with
        | none => some { s with panicked := true }
        | some (_, value) =>
          some { s with
            sent := s.sent ++ [⟨worker.ID, task, value⟩]
            pcs := s.pcs.set w .top }
      | _, _ => none

/-- A schedule: the steps taken one after the other. -/
def exec (env : GoEnv F) (tasks : List (Task F)) (content : List (Content F)) :
    List Action → RunState F → Option (RunState F)
  | [], s => some s
  | a :: rest, s =>
    match step env tasks content a s with
    | none => none
    | some s1 => exec env tasks content rest s1

/-- The state in which `Run` is called: workers made by `newWorker` with the given
IDs, nothing distributed, no goroutine started, nothing sent. -/
def initState (ids : List Int) : RunState F :=
  { ws := ⟨ids.map newWorker⟩
    next := 0
    pcs := ids.map (fun _ => Pc.top)
    sent := []
    panicked := false }

/-- The states some interleaving of the steps reaches. -/
def Reachable (env : GoEnv F) (ids : List Int) (tasks : List (Task F))
    (content : List (Content F)) (s : RunState F) : Prop :=
  ∃ acts : List Action, exec env tasks content acts (initState ids) = some s

/-- The tasks resident in some deque. -/
def resident (s : RunState F) : Multiset (Task F) :=
  (s.ws.Workers.map (fun w => (w.Deque.items : Multiset (Task F)))).sum

/-- The tasks popped by a worker and neither sent nor pushed back yet. -/
def inHand (s : RunState F) : Multiset (Task F) :=
  (s.pcs.map (fun pc => (pc.inHand : Multiset (Task F)))).sum

/-- The tasks whose result has been sent on the channel. -/
def emitted (s : RunState F) : Multiset (Task F) :=
  (s.sent.map (fun e => e.task) : List (Task F))

/-- The run has finished: the distribution loop is over, every deque is empty and no
task is in a worker's hand. -/
def finished (tasks : List (Task F)) (s : RunState F) : Bool :=
  decide (tasks.length ≤ s.next) && s.ws.Workers.all (fun w => w.Deque.items.isEmpty) &&
    s.pcs.all (fun pc => pc.inHand.isEmpty)

/-- The name of a position of the worker loop. -/
def Pc.name : Pc F → String
  | .top => "top"
  | .seeking => "seeking"
  | .stolen _ => "stolen"
  | .holding _ => "holding"

/-- What an observer sees of a state: the task IDs in each deque, front to back, and
for each worker its position with the ID of the task in its hand. -/
def RunState.view (s : RunState F) : List (List Int) × List (String × List Int) :=
  (s.ws.Workers.map (fun w => w.Deque.items.map (fun t => t.ID)),
   s.pcs.map (fun pc => (pc.name, pc.inHand.map (fun t => t.ID))))

/-- The steps that leave worker `w` alone: a step of another worker that does not draw
`w` as the victim of a steal attempt. -/
def Action.leaves (w : Nat) : Action → Bool
  | .distribute => false
  | .popFront u => decide (u ≠ w)
  | .steal u otherWorkerIndex => decide (u ≠ w) && decide (otherWorkerIndex ≠ w)
  | .pushFront u => decide (u ≠ w)
  | .send u => decide (u ≠ w)

/-- The invariant of a run: the worker IDs and the number of goroutines never change,
no goroutine moves before the distribution loop is over, the tasks pushed so far are
each in exactly one place, and a worker that found its deque empty still has it empty
until it pushes a stolen task. -/
structure Inv (ids : List Int) (tasks : List (Task F)) (s : RunState F) : Prop where
  ids_eq : s.ws.Workers.map (fun w => w.ID) = ids
  pcs_len : s.pcs.length = ids.length
  next_le : s.next ≤ tasks.length
  idle : s.next < tasks.length → ∀ pc ∈ s.pcs, pc = Pc.top
  conserve : resident s + inHand s + emitted s =
    ((tasks.take s.next : List (Task F)) : Multiset (Task F))
  empty_own : ∀ (w : Nat) (worker : Worker F), s.ws.Workers[w]? = some worker →
    (s.pcs[w]? = some Pc.seeking ∨ ∃ t, s.pcs[w]? = some (Pc.stolen t)) →
    worker.Deque.items = []

/-- With one worker: the tasks sent, then the task in hand, then the deque, front to
back, are the tasks distributed so far in submission order, and no task is ever in the
stolen position. -/
structure InOrder (id : Int) (tasks : List (Task F)) (s : RunState F) : Prop where
  shape : ∃ pc items, s.pcs = [pc] ∧ s.ws.Workers = [⟨id, ⟨items⟩⟩] ∧
    (∀ t, pc ≠ Pc.stolen t) ∧
    s.sent.map (fun e => e.task) ++ pc.inHand ++ items = tasks.take s.next

end Scheduler

/-! ## The program of `main` -/

section Main

variable {F : Type} [LinearOrderedField F]

/-- The catalog `contents` of `main`. -/
def main.contents : List (Content F) :=
  [
    ⟨"Item1", GoMap.ofList [("Feature1", 0.2), ("Feature2", 0.8)]⟩,
    ⟨"Item2", GoMap.ofList [("Feature1", 0.1), ("Feature2", 0.3)]⟩,
    ⟨"Item3", GoMap.ofList [("Feature1", 0.2), ("Feature2", 0.1)]⟩,
    ⟨"Item4", GoMap.ofList [("Feature1", 0.3), ("Feature2", 0.2)]⟩,
    ⟨"Item5", GoMap.ofList [("Feature1", 0.6), ("Feature2", 0.2)]⟩,
    ⟨"Item6", GoMap.ofList [("Feature1", 0.1), ("Feature2", 0.5)]⟩,
    ⟨"Item7", GoMap.ofList [("Feature1", 0.2), ("Feature2", 0.0)]⟩,
    ⟨"Item8", GoMap.ofList [("Feature1", 0.5), ("Feature2", 0.5)]⟩,
    ⟨"Item9", GoMap.ofList [("Feature1", 0.5), ("Feature2", 0.5)]⟩,
    ⟨"Item10", GoMap.ofList [("Feature1", 0), ("Feature2", 0.4)]⟩
  ]

/-- The carts `taskPool` of `main`. -/
def main.taskPool : List (ShopingCart F) :=
  [
    ⟨"User1", [⟨"Item1", GoMap.ofList [("Feature1", 0.2), ("Feature2", 0.8)]⟩]⟩,
    ⟨"User2", [⟨"Item2", GoMap.ofList [("Feature1", 0.5), ("Feature2", 0.1)]⟩]⟩,
    ⟨"User3", [⟨"Item3", GoMap.ofList [("Feature1", 0.6), ("Feature2", 0.3)]⟩]⟩,
    ⟨"User4", [⟨"Item4", GoMap.ofList [("Feature1", 0.1), ("Feature2", 0.5)]⟩]⟩,
    ⟨"User5", [⟨"Item5", GoMap.ofList [("Feature1", 0.4), ("Feature2", 0.3)]⟩]⟩,
    ⟨"User6", [⟨"Item6", GoMap.ofList [("Feature1", 0.1), ("Feature2", 0.9)]⟩]⟩,
    ⟨"User7", [⟨"Item7", GoMap.ofList [("Feature1", 0.5), ("Feature2", 0.3)]⟩]⟩,
    ⟨"User8", [⟨"Item8", GoMap.ofList [("Feature1", 0.1), ("Feature2", 0.0)]⟩]⟩,
    ⟨"User9", [⟨"Item2", GoMap.ofList [("Feature1", 0.6), ("Feature2", 0.3)]⟩]⟩,
    ⟨"User10", [⟨"Item3", GoMap.ofList [("Feature1", 0.2), ("Feature2", 0.7)]⟩]⟩,
    ⟨"User11", [⟨"Item5", GoMap.ofList [("Feature1", 0.1), ("Feature2", 0.3)]⟩]⟩,
    ⟨"User12", [⟨"Item1", GoMap.ofList [("Feature1", 0.1), ("Feature2", 0.1)]⟩]⟩,
    ⟨"User13", [⟨"Item5", GoMap.ofList [("Feature1", 0.5), ("Feature2", 0.3)]⟩]⟩,
    ⟨"User14", [⟨"Item7", GoMap.ofList [("Feature1", 0.1), ("Feature2", 0.8)]⟩]⟩,
    ⟨"User15", [⟨"Item9", GoMap.ofList [("Feature1", 0.1), ("Feature2", 0.4)]⟩]⟩
  ]

/-- The slice `tasks` of `main`: `tasks[i] = deque.Task{ID: i + 1, Task: taskPool[i]}`. -/
def main.tasks : List (Task F) :=
  (main.taskPool.enum).map (fun p => ⟨(p.1 : Int) + 1, p.2⟩)

/-- The number `workers` of `main`. -/
def main.workers : Nat := 4

/-- The IDs of the workers of `main`: `newWorker(i)` for `i` from 0 below `workers`. -/
def main.ids : List Int :=
  (List.range main.workers).map (fun i => (i : Int))

end Main

/-- A schedule for the program of `main`: the distribution loop, then each worker in
turn pops and sends the tasks of its own deque. -/
def main.schedule : List Action :=
  List.replicate 15 Action.distribute ++
  (List.replicate 4 [Action.popFront 0, Action.send 0]).flatten ++
  (List.replicate 4 [Action.popFront 1, Action.send 1]).flatten ++
  (List.replicate 4 [Action.popFront 2, Action.send 2]).flatten ++
  (List.replicate 3 [Action.popFront 3, Action.send 3]).flatten

/-- The feature map `{a: 1}`. -/
def asymmetry.f1 {F : Type} [LinearOrderedField F] : GoMap F := GoMap.ofList [("a", 1)]

/-- The feature map `{a: 1, b: 1}`. -/
def asymmetry.f2 {F : Type} [LinearOrderedField F] : GoMap F :=
  GoMap.ofList [("a", 1), ("b", 1)]

/-- The feature map `{a: 2, b: 3}`. -/
def asymmetry.g {F : Type} [LinearOrderedField F] : GoMap F :=
  GoMap.ofList [("a", 2), ("b", 3)]

/-! ## A concrete environment -/

/-- What `sort.Slice` guarantees for the `less` function of `FindTopSimilarItems` when
the scores are linearly ordered, so that `less` is a strict weak ordering: the result is
a rearrangement of the slice in which no element is less than an earlier one. Nothing is
said about the order of equal scores (the sort is not stable). On `float64` scores with
a not-a-number among them `less` is no such ordering and the guarantee is lost. -/
def SortSpec {F : Type} [LinearOrderedField F] (env : GoEnv F) : Prop :=
  ∀ l : List (result F), (env.sortSlice scoreLess l).Perm l ∧
    (env.sortSlice scoreLess l).Pairwise (fun a b => scoreLess b a = false)

/-- An environment over the rationals on which the embedding can be run: merge sort
for `sort.Slice`, a capacity equal to the length, and the identity in place of the
square root (the rationals have none). -/
def ratEnv : GoEnv ℚ :=
  { sqrt := fun x => x
    sortSlice := fun less l => l.mergeSort (fun a b => !less b a)
    growCap := fun n => n }

/-- The state `main.schedule` leads to (the initial state, should the schedule not be
executable). -/
def main.finalState : RunState ℚ :=
  (exec ratEnv main.tasks main.contents main.schedule (initState main.ids)).getD
    (initState main.ids)

/-- A schedule for the program of `main` that ends with worker 3 out of work: after
the distribution loop worker 0 pops and sends task 1 and pops task 5, worker 3 pops and
sends its three tasks and then finds its deque empty. -/
def main.stealSchedule : List Action :=
  List.replicate 15 Action.distribute ++
  [Action.popFront 0, Action.send 0, Action.popFront 0] ++
  (List.replicate 3 [Action.popFront 3, Action.send 3]).flatten ++
  [Action.popFront 3]

/-- The state `main.stealSchedule` leads to. -/
def main.stealState : RunState ℚ :=
  (exec ratEnv main.tasks main.contents main.stealSchedule (initState main.ids)).getD
    (initState main.ids)

/-- The state one step after `main.stealState`: worker 3 has drawn worker 0 and taken
task 13 from the back of its deque. -/
def main.midState : RunState ℚ :=
  (exec ratEnv main.tasks main.contents (main.stealSchedule ++ [Action.steal 3 0])
    (initState main.ids)).getD (initState main.ids)

/-- The task with ID 13 of `main`. -/
def main.task13 : Task ℚ :=
  ⟨13, ⟨"User13", [⟨"Item5", GoMap.ofList [("Feature1", 0.5), ("Feature2", 0.3)]⟩]⟩⟩

/-- The state after `main.midState` in which worker 3 has pushed the stolen task 13 on
its own deque. -/
def main.pushedState : RunState ℚ :=
  (step ratEnv main.tasks main.contents (Action.pushFront 3) main.midState).getD main.midState

/-- The state after `main.pushedState` in which worker 1 has popped and sent a task. -/
def main.laterState : RunState ℚ :=
  (exec ratEnv main.tasks main.contents [Action.popFront 1, Action.send 1]
    main.pushedState).getD main.pushedState

/-- A schedule for the program of `main` in which a stolen task is stolen back: after
`main.stealSchedule` worker 3 draws worker 0, takes task 13 and pushes it on its own
deque; worker 2 then pops and sends its four tasks, finds its deque empty, draws worker 3
and takes task 13, before worker 3 has called `PopFront` again. -/
def main.restealSchedule : List Action :=
  main.stealSchedule ++ [Action.steal 3 0, Action.pushFront 3] ++
  (List.replicate 4 [Action.popFront 2, Action.send 2]).flatten ++
  [Action.popFront 2, Action.steal 2 3]

/-- A schedule for the tasks of `main` on a single worker. -/
def single.schedule : List Action :=
  List.replicate 15 Action.distribute ++
  (List.replicate 15 [Action.popFront 0, Action.send 0]).flatten

/-- The state `single.schedule` leads to with the one worker 0. -/
def single.finalState : RunState ℚ :=
  (exec ratEnv main.tasks main.contents single.schedule (initState [0])).getD (initState [0])

/-! ## A model of `float64` -/

/-- The values of a `float64`: not-a-number, the two infinities, and the finite values
as exact rationals. The operations below follow IEEE 754 on these values with rounding
left out: a finite result is kept exact, and a result beyond the largest finite
`float64` overflows to an infinity. The sign of zero is not modelled. -/
inductive Float64 where
  | nan : Float64
  | posInf : Float64
  | negInf : Float64
  | fin (q : ℚ) : Float64
  deriving DecidableEq

namespace Float64

/-- The constant `math.MaxFloat64`, the largest finite value: `(2 - 2^-52) * 2^1023`. -/
def maxFinite : ℚ := (2 ^ 53 - 1) * 2 ^ 971

/-- The `float64` for an exact result: overflow gives an infinity. -/
def ofExact (q : ℚ) : Float64 :=
  if maxFinite < q then posInf else if q < -maxFinite then negInf else fin q

/-- The operator `+` on `float64`. -/
def add : Float64 → Float64 → Float64
  | nan, _ => nan
  | _, nan => nan
  | posInf, negInf => nan
  | negInf, posInf => nan
  | posInf, _ => posInf
  | _, posInf => posInf
  | negInf, _ => negInf
  | _, negInf => negInf
  | fin a, fin b => ofExact (a + b)

/-- The operator `*` on `float64`. -/
def mul : Float64 → Float64 → Float64
  | nan, _ => nan
  | _, nan => nan
  | posInf, posInf => posInf
  | posInf, negInf => negInf
  | negInf, posInf => negInf
  | negInf, negInf => posInf
  | posInf, fin b => if b = 0 then nan else if 0 < b then posInf else negInf
  | negInf, fin b => if b = 0 then nan else if 0 < b then negInf else posInf
  | fin a, posInf => if a = 0 then nan else if 0 < a then posInf else negInf
  | fin a, negInf => if a = 0 then nan else if 0 < a then negInf else posInf
  | fin a, fin b => ofExact (a * b)

/-- The operator `/` on `float64`. -/
def div : Float64 → Float64 → Float64
  | nan, _ => nan
  | _, nan => nan
  | posInf, posInf => nan
  | posInf, negInf => nan
  | negInf, posInf => nan
  | negInf, negInf => nan
  | posInf, fin b => if 0 ≤ b then posInf else negInf
  | negInf, fin b => if 0 ≤ b then negInf else posInf
  | fin _, posInf => fin 0
  | fin _, negInf => fin 0
  | fin a, fin b =>
    if b = 0 then (if a = 0 then nan else if 0 < a then posInf else negInf)
    else ofExact (a / b)

/-- The operator `<` on `float64`: false whenever an operand is not-a-number. -/
def lt : Float64 → Float64 → Bool
  | nan, _ => false
  | _, nan => false
  | posInf, _ => false
  | _, negInf => false
  | negInf, _ => true
  | fin _, posInf => true
  | fin a, fin b => decide (a < b)

/-- The function `math.Pow` with a natural exponent, as a repeated product. -/
def pow (x : Float64) : Nat → Float64
  | 0 => fin 1
  | n + 1 => mul (pow x n) x

/-- Newton's iteration for the integer square root of `n`, from the guess `g`. -/
def sqrtLoop : Nat → Nat → Nat → Nat
  | 0, _, g => g
  | fuel + 1, n, g =>
    let g1 := (g + n / g) / 2
    if g1 < g then sqrtLoop fuel n g1 else g

/-- The integer square root. -/
def natSqrt (n : Nat) : Nat := if n = 0 then 0 else sqrtLoop n n n

/-- The function `math.Sqrt`: exact on the squares of rationals; elsewhere the finite
result is only an approximation (rounding is not modelled). -/
def sqrt : Float64 → Float64
  | nan => nan
  | posInf => posInf
  | negInf => nan
  | fin q => if q < 0 then nan else fin ((natSqrt q.num.toNat : ℚ) / (natSqrt q.den : ℚ))

instance : Zero Float64 := ⟨fin 0⟩

instance : Add Float64 := ⟨add⟩

instance : Mul Float64 := ⟨mul⟩

instance : Div Float64 := ⟨div⟩

instance : Pow Float64 ℕ := ⟨pow⟩

instance : NatCast Float64 := ⟨fun n => fin n⟩

instance : LT Float64 := ⟨fun a b => lt a b = true⟩

instance : DecidableRel (fun a b : Float64 => a < b) :=
  fun a b => inferInstanceAs (Decidable (lt a b = true))

end Float64

deriving instance DecidableEq for result

/-- The inner loop of the library's `insertionSort_func`: the element `x` moves towards
the front past every element it is less than. The list is the part of the slice before
`x`, nearest element first. -/
def insertBack {α : Type} (less : α → α → Bool) (x : α) : List α → List α
  | [] => [x]
  | y :: before => if less x y then y :: insertBack less x before else x :: y :: before

/-- The library's `insertionSort_func`, which is what `sort.Slice` runs on a slice of at
most 12 elements. -/
def insertionSort_func {α : Type} (less : α → α → Bool) (l : List α) : List α :=
  (l.foldl (fun sortedRev x => insertBack less x sortedRev) []).reverse

/-- The environment with a given square root, the insertion sort for `sort.Slice` and a
capacity equal to the length. -/
def shortSliceEnv {F : Type} (sqrt : F → F) : GoEnv F :=
  { sqrt := sqrt
    sortSlice := fun less l => insertionSort_func less l
    growCap := fun n => n }

/-- A cart holding one item with the feature map `{a: 2}`. -/
def overflow.cart : ShopingCart Float64 :=
  ⟨"U", [⟨"X", GoMap.ofList [("a", Float64.fin 2)]⟩]⟩

/-- The catalog item `A` with the feature map `{a: -1}`. -/
def overflow.itemA : Content Float64 := ⟨"A", GoMap.ofList [("a", Float64.fin (-1))]⟩

/-- The catalog item `B` with the feature map `{a: 2^1023}`, a finite `float64`. -/
def overflow.itemB : Content Float64 := ⟨"B", GoMap.ofList [("a", Float64.fin (2 ^ 1023))]⟩

/-- The catalog item `C` with the feature map `{a: 1}`. -/
def overflow.itemC : Content Float64 := ⟨"C", GoMap.ofList [("a", Float64.fin 1)]⟩

/-- The catalog `[A, B, C]`. -/
def overflow.catalog : List (Content Float64) :=
  [overflow.itemA, overflow.itemB, overflow.itemC]

/-! ## Reachability and the invariant -/

section Lemmas
variable {F : Type} [LinearOrderedField F]

theorem exec_append (env : GoEnv F) (tasks : List (Task F)) (content : List (Content F))
    (as bs : List Action) (s : RunState F) :
    exec env tasks content (as ++ bs) s =
      (exec env tasks content as s).bind (exec env tasks content bs) := by
  induction as generalizing s with
  | nil => simp [exec]
  | cons a rest ih =>
    simp only [List.cons_append, exec]
    cases step env tasks content a s with
    | none => simp
    | some s1 => simpa using ih s1

theorem Reachable.start (env : GoEnv F) (ids : List Int) (tasks : List (Task F))
    (content : List (Content F)) : Reachable env ids tasks content (initState ids) :=
  ⟨[], rfl⟩

theorem Reachable.next {env : GoEnv F} {ids : List Int} {tasks : List (Task F)}
    {content : List (Content F)} {s s1 : RunState F} (a : Action)
    (hs : Reachable env ids tasks content s) (h : step env tasks content a s = some s1) :
    Reachable env ids tasks content s1 := by
  obtain ⟨acts, hacts⟩ := hs
  refine ⟨acts ++ [a], ?_⟩
  rw [exec_append, hacts]
  simp [exec, h]

theorem Reachable.induct {env : GoEnv F} {ids : List Int} {tasks : List (Task F)}
    {content : List (Content F)} {P : RunState F → Prop} (h0 : P (initState ids))
    (hstep : ∀ s a s1, Reachable env ids tasks content s → P s →
      step env tasks content a s = some s1 → P s1) :
    ∀ s, Reachable env ids tasks content s → P s := by
  rintro s ⟨acts, hacts⟩
  induction acts using List.reverseRecOn generalizing s with
  | nil =>
    simp only [exec, Option.some.injEq] at hacts
    exact hacts ▸ h0
  | append_singleton acts a ih =>
    rw [exec_append] at hacts
    cases hmid : exec env tasks content acts (initState ids) with
    | none => simp [hmid] at hacts
    | some mid =>
      rw [hmid] at hacts
      simp only [Option.some_bind, exec] at hacts
      cases hst : step env tasks content a mid with
      | none => simp [hst] at hacts
      | some s2 =>
        rw [hst] at hacts
        simp only [Option.some.injEq] at hacts
        subst hacts
        exact hstep mid a s2 ⟨acts, hmid⟩ (ih mid hmid) hst

theorem sum_map_set {α β : Type} (f : α → Multiset β) :
    ∀ (l : List α) (i : Nat) (a : α), l[i]? = some a →
      ∃ rest : Multiset β, (l.map f).sum = f a + rest ∧
        ∀ x, ((l.set i x).map f).sum = f x + rest
  | [], i, a, h => by simp at h
  | b :: l, 0, a, h => by
    simp only [List.getElem?_cons_zero, Option.some.injEq] at h
    subst h
    exact ⟨(l.map f).sum, by simp, fun x => by simp⟩
  | b :: l, i + 1, a, h => by
    simp only [List.getElem?_cons_succ] at h
    obtain ⟨rest, h1, h2⟩ := sum_map_set f l i a h
    refine ⟨f b + rest, ?_, fun x => ?_⟩
    · rw [List.map_cons, List.sum_cons, h1]; abel
    · rw [List.set_cons_succ, List.map_cons, List.sum_cons, h2]; abel


theorem Deque.PopFront_eq_none {α : Type} (d : Deque α) : d.PopFront = none ↔ d.items = [] := by
  unfold Deque.PopFront
  cases d.items <;> simp

theorem Deque.PopFront_eq_some {α : Type} (d : Deque α) (x : α) (r : Deque α) :
    d.PopFront = some (x, r) ↔ d.items = x :: r.items := by
  unfold Deque.PopFront
  cases r with
  | mk ritems =>
    cases d.items <;> simp

theorem Deque.PopBack_eq_none {α : Type} (d : Deque α) : d.PopBack = none ↔ d.items = [] := by
  unfold Deque.PopBack
  cases h : d.items.getLast? with
  | none => simpa using h
  | some x =>
    constructor
    · intro h1
      simp at h1
    · intro h0
      simp [h0] at h

theorem Deque.PopBack_eq_some {α : Type} (d : Deque α) (x : α) (r : Deque α) :
    d.PopBack = some (x, r) ↔ d.items = r.items ++ [x] := by
  unfold Deque.PopBack
  cases r with
  | mk ritems =>
    cases h : d.items.getLast? with
    | none =>
      simp only [List.getLast?_eq_none_iff] at h
      simp [h]
    | some y =>
      simp only [Option.some.injEq, Prod.mk.injEq, Deque.mk.injEq]
      constructor
      · rintro ⟨rfl, rfl⟩
        exact (List.dropLast_append_getLast? y h).symm
      · intro h2
        rw [h2] at h
        simp at h
        subst h
        simp [h2]

theorem step_distribute_inv {env : GoEnv F} {tasks : List (Task F)} {content : List (Content F)}
    {s s1 : RunState F} (h : step env tasks content Action.distribute s = some s1) :
    s.panicked = false ∧ ∃ task, tasks[s.next]? = some task ∧
      ((Run.distributeIter s.ws s.next task = none ∧ s1 = { s with panicked := true }) ∨
       ∃ ws1, Run.distributeIter s.ws s.next task = some ws1 ∧
         s1 = { s with ws := ws1, next := s.next + 1 }) := by
  simp only [step] at h
  split at h
  · simp at h
  · rename_i hp
    refine ⟨by simpa using hp, ?_⟩
    split at h
    · simp at h
    · rename_i task ht
      refine ⟨task, ht, ?_⟩
      split at h
      · rename_i hd
        left
        exact ⟨hd, by simpa using h.symm⟩
      · rename_i ws1 hd
        right
        exact ⟨ws1, hd, by simpa using h.symm⟩

theorem step_popFront_inv {env : GoEnv F} {tasks : List (Task F)} {content : List (Content F)}
    {s s1 : RunState F} {w : Nat} (h : step env tasks content (Action.popFront w) s = some s1) :
    s.panicked = false ∧ tasks.length ≤ s.next ∧ s.pcs[w]? = some Pc.top ∧
      ∃ worker, s.ws.Workers[w]? = some worker ∧
        ((worker.Deque.items = [] ∧ s1 = { s with pcs := s.pcs.set w Pc.seeking }) ∨
         ∃ task rest, worker.Deque.items = task :: rest ∧
           s1 = { s with
             ws := ⟨s.ws.Workers.set w { worker with Deque := ⟨rest⟩ }⟩
             pcs := s.pcs.set w (Pc.holding task) }) := by
  simp only [step] at h
  split at h
  · simp at h
  · rename_i hg
    simp only [not_or, Bool.not_eq_true, not_lt] at hg
    refine ⟨hg.1, hg.2, ?_⟩
    split at h
    · rename_i worker hpc hw
      refine ⟨hpc, worker, hw, ?_⟩
      split at h
      · rename_i hpop
        left
        exact ⟨(Deque.PopFront_eq_none _).1 hpop, by simpa using h.symm⟩
      · rename_i task d hpop
        right
        exact ⟨task, d.items, (Deque.PopFront_eq_some _ _ _).1 hpop, by simpa using h.symm⟩
    · simp at h


theorem step_steal_inv {env : GoEnv F} {tasks : List (Task F)} {content : List (Content F)}
    {s s1 : RunState F} {w v : Nat} (h : step env tasks content (Action.steal w v) s = some s1) :
    s.panicked = false ∧ tasks.length ≤ s.next ∧ s.pcs[w]? = some Pc.seeking ∧
      ∃ worker otherWorker, s.ws.Workers[w]? = some worker ∧
        s.ws.Workers[v]? = some otherWorker ∧
        ((otherWorker.ID ≠ worker.ID ∧ ∃ t rest, otherWorker.Deque.items = rest ++ [t] ∧
            s1 = { s with
              ws := ⟨s.ws.Workers.set v { otherWorker with Deque := ⟨rest⟩ }⟩
              pcs := s.pcs.set w (Pc.stolen t) }) ∨
         ((otherWorker.ID = worker.ID ∨ otherWorker.Deque.items = []) ∧
            s1 = { s with pcs := s.pcs.set w Pc.top })) := by
  simp only [step] at h
  split at h
  · simp at h
  · rename_i hg
    simp only [not_or, Bool.not_eq_true, not_lt] at hg
    refine ⟨hg.1, hg.2, ?_⟩
    split at h
    · rename_i worker hpc hw
      split at h
      · simp at h
      · rename_i otherWorker hv
        refine ⟨hpc, worker, otherWorker, hw, hv, ?_⟩
        split at h
        · rename_i hne
          split at h
          · rename_i t d hpop
            left
            exact ⟨hne, t, d.items, (Deque.PopBack_eq_some _ _ _).1 hpop, by simpa using h.symm⟩
          · rename_i hpop
            right
            exact ⟨Or.inr ((Deque.PopBack_eq_none _).1 hpop), by simpa using h.symm⟩
        · rename_i heq
          right
          exact ⟨Or.inl (by simpa using heq), by simpa using h.symm⟩
    · simp at h

theorem step_pushFront_inv {env : GoEnv F} {tasks : List (Task F)} {content : List (Content F)}
    {s s1 : RunState F} {w : Nat} (h : step env tasks content (Action.pushFront w) s = some s1) :
    s.panicked = false ∧ tasks.length ≤ s.next ∧
      ∃ t worker, s.pcs[w]? = some (Pc.stolen t) ∧ s.ws.Workers[w]? = some worker ∧
        s1 = { s with
          ws := ⟨s.ws.Workers.set w { worker with Deque := ⟨t :: worker.Deque.items⟩ }⟩
          pcs := s.pcs.set w Pc.top } := by
  simp only [step] at h
  split at h
  · simp at h
  · rename_i hg
    simp only [not_or, Bool.not_eq_true, not_lt] at hg
    refine ⟨hg.1, hg.2, ?_⟩
    split at h
    · rename_i t worker hpc hw
      exact ⟨t, worker, hpc, hw, by simpa [Deque.PushFront] using h.symm⟩
    · simp at h

theorem step_send_inv {env : GoEnv F} {tasks : List (Task F)} {content : List (Content F)}
    {s s1 : RunState F} {w : Nat} (h : step env tasks content (Action.send w) s = some s1) :
    s.panicked = false ∧ tasks.length ≤ s.next ∧
      ∃ task worker, s.pcs[w]? = some (Pc.holding task) ∧ s.ws.Workers[w]? = some worker ∧
        ((processTask env task worker.ID content = none ∧ s1 = { s with panicked := true }) ∨
         ∃ printed value, processTask env task worker.ID content = some (printed, value) ∧
           s1 = { s with
             sent := s.sent ++ [⟨worker.ID, task, value⟩]
             pcs := s.pcs.set w Pc.top }) := by
  simp only [step] at h
  split at h
  · simp at h
  · rename_i hg
    simp only [not_or, Bool.not_eq_true, not_lt] at hg
    refine ⟨hg.1, hg.2, ?_⟩
    split at h
    · rename_i task worker hpc hw
      refine ⟨task, worker, hpc, hw, ?_⟩
      split at h
      · rename_i hp
        left
        exact ⟨hp, by simpa using h.symm⟩
      · rename_i printed value hp
        right
        exact ⟨printed, value, hp, by simpa using h.symm⟩
    · simp at h

theorem distributeIter_eq_some {ws ws1 : WorkStealingScheduler F} {i : Nat} {task : Task F}
    (h : Run.distributeIter ws i task = some ws1) :
    0 < ws.Workers.length ∧ ∃ worker, ws.Workers[i % ws.Workers.length]? = some worker ∧
      ws1 = ⟨ws.Workers.set (i % ws.Workers.length)
        { worker with Deque := ⟨worker.Deque.items ++ [task]⟩ }⟩ := by
  unfold Run.distributeIter at h
  split at h
  · simp at h
  · rename_i hn
    refine ⟨Nat.pos_of_ne_zero hn, ?_⟩
    split at h
    · simp at h
    · rename_i worker hw
      exact ⟨worker, hw, by simpa [Deque.PushBack] using h.symm⟩

theorem distributeIter_isSome {ws : WorkStealingScheduler F} (i : Nat) (task : Task F)
    (h : 0 < ws.Workers.length) : ∃ ws1, Run.distributeIter ws i task = some ws1 := by
  unfold Run.distributeIter
  rw [if_neg (Nat.pos_iff_ne_zero.1 h)]
  have hlt : i % ws.Workers.length < ws.Workers.length := Nat.mod_lt _ h
  rw [List.getElem?_eq_getElem hlt]
  exact ⟨_, rfl⟩


theorem map_set_same {α β : Type} (f : α → β) {l : List α} {i : Nat} {a x : α}
    (h : l[i]? = some a) (hf : f x = f a) : (l.set i x).map f = l.map f := by
  rw [List.map_set, hf]
  apply List.ext_getElem?
  intro j
  by_cases hij : i = j
  · subst hij
    rw [List.getElem?_set_self', List.getElem?_map, h]
    simp
  · rw [List.getElem?_set_ne hij]

theorem inv_init (ids : List Int) (tasks : List (Task F)) :
    Inv ids tasks (initState ids : RunState F) := by
  refine ⟨?_, ?_, ?_, ?_, ?_, ?_⟩
  · simp [initState, newWorker, Function.comp_def]
  · simp [initState]
  · simp [initState]
  · intro _ pc hpc
    simp only [initState, List.mem_map] at hpc
    obtain ⟨_, _, rfl⟩ := hpc
    rfl
  · have h1 : ∀ l : List Int, resident (initState l : RunState F) = 0 := by
      intro l
      simp only [resident, initState, newWorker, List.map_map]
      induction l with
      | nil => rfl
      | cons a l ih =>
        rw [List.map_cons, List.sum_cons, ih]
        rfl
    have h2 : ∀ l : List Int, inHand (initState l : RunState F) = 0 := by
      intro l
      simp only [inHand, initState, List.map_map]
      induction l with
      | nil => rfl
      | cons a l ih => simpa [Pc.inHand] using ih
    rw [h1, h2]
    simp [emitted, initState]
  · intro w worker hw _
    simp only [initState, List.getElem?_map] at hw
    cases hi : ids[w]? with
    | none => simp [hi] at hw
    | some i =>
      simp only [hi, Option.map_some', Option.some.injEq] at hw
      subst hw
      rfl


theorem inv_distribute {env : GoEnv F} {ids : List Int} {tasks : List (Task F)}
    {content : List (Content F)} {s s1 : RunState F} (h : Inv ids tasks s)
    (hst : step env tasks content Action.distribute s = some s1) : Inv ids tasks s1 := by
  obtain ⟨_, task, ht, hcase⟩ := step_distribute_inv hst
  have hlt : s.next < tasks.length := by
    rcases List.getElem?_eq_some.1 ht with ⟨hlt, _⟩
    exact hlt
  rcases hcase with ⟨_, rfl⟩ | ⟨ws1, hd, rfl⟩
  · exact ⟨h.ids_eq, h.pcs_len, h.next_le, h.idle, h.conserve, h.empty_own⟩
  · obtain ⟨_, worker, hw, rfl⟩ := distributeIter_eq_some hd
    refine ⟨?_, h.pcs_len, hlt, fun _ => h.idle hlt, ?_, ?_⟩
    · refine (map_set_same (fun w : Worker F => w.ID) hw ?_).trans h.ids_eq
      rfl
    · obtain ⟨rest, h1, h2⟩ := sum_map_set (fun w : Worker F => (w.Deque.items : Multiset (Task F)))
        _ _ _ hw
      have hc := h.conserve
      simp only [resident] at hc ⊢
      rw [h1] at hc
      rw [h2, List.take_succ, ht]
      simp only [Option.toList, ← Multiset.coe_add, ← hc]
      abel
    · intro w wk _ hpc
      exfalso
      have htop := h.idle hlt
      rcases hpc with hpc | ⟨t, hpc⟩
      · have := htop _ (List.mem_iff_getElem?.2 ⟨w, hpc⟩)
        cases this
      · have := htop _ (List.mem_iff_getElem?.2 ⟨w, hpc⟩)
        cases this


theorem getElem?_set_at {α : Type} {l : List α} {i : Nat} {a x : α} (h : l[i]? = some a) :
    (l.set i x)[i]? = some x := by
  rw [List.getElem?_set_self', h]
  rfl

theorem inv_popFront {env : GoEnv F} {ids : List Int} {tasks : List (Task F)}
    {content : List (Content F)} {s s1 : RunState F} {w : Nat} (h : Inv ids tasks s)
    (hst : step env tasks content (Action.popFront w) s = some s1) : Inv ids tasks s1 := by
  obtain ⟨_, hge, hpc, worker, hw, hcase⟩ := step_popFront_inv hst
  obtain ⟨restH, hH1, hH2⟩ := sum_map_set (fun pc : Pc F => (pc.inHand : Multiset (Task F)))
    _ _ _ hpc
  obtain ⟨restR, hR1, hR2⟩ := sum_map_set (fun w : Worker F => (w.Deque.items : Multiset (Task F)))
    _ _ _ hw
  have hc := h.conserve
  simp only [resident, inHand] at hc
  rcases hcase with ⟨hemp, rfl⟩ | ⟨task, rest, hitems, rfl⟩
  · refine ⟨h.ids_eq, by simpa using h.pcs_len, h.next_le,
      fun hlt => absurd hlt (not_lt.2 hge), ?_, ?_⟩
    · simp only [resident, inHand]
      rw [hH2, ← hc, hH1]
      rfl
    · intro w1 wk hwk hpc1
      by_cases hww : w = w1
      · subst hww
        rw [hw] at hwk
        cases hwk
        exact hemp
      · simp only [List.getElem?_set_ne hww] at hpc1
        exact h.empty_own w1 wk hwk hpc1
  · refine ⟨?_, by simpa using h.pcs_len, h.next_le,
      fun hlt => absurd hlt (not_lt.2 hge), ?_, ?_⟩
    · refine (map_set_same (fun w : Worker F => w.ID) hw ?_).trans h.ids_eq
      rfl
    · simp only [resident, inHand]
      rw [hH2, hR2, ← hc, hH1, hR1, hitems]
      simp only [Pc.inHand, ← Multiset.cons_coe, ← Multiset.singleton_add, Multiset.coe_nil]
      abel
    · intro w1 wk hwk hpc1
      by_cases hww : w = w1
      · subst hww
        simp only [getElem?_set_at hpc] at hpc1
        simp at hpc1
      · simp only [List.getElem?_set_ne hww] at hpc1 hwk
        exact h.empty_own w1 wk hwk hpc1

theorem inv_pushFront {env : GoEnv F} {ids : List Int} {tasks : List (Task F)}
    {content : List (Content F)} {s s1 : RunState F} {w : Nat} (h : Inv ids tasks s)
    (hst : step env tasks content (Action.pushFront w) s = some s1) : Inv ids tasks s1 := by
  obtain ⟨_, hge, t, worker, hpc, hw, rfl⟩ := step_pushFront_inv hst
  obtain ⟨restH, hH1, hH2⟩ := sum_map_set (fun pc : Pc F => (pc.inHand : Multiset (Task F)))
    _ _ _ hpc
  obtain ⟨restR, hR1, hR2⟩ := sum_map_set (fun w : Worker F => (w.Deque.items : Multiset (Task F)))
    _ _ _ hw
  have hc := h.conserve
  simp only [resident, inHand] at hc
  refine ⟨?_, by simpa using h.pcs_len, h.next_le,
    fun hlt => absurd hlt (not_lt.2 hge), ?_, ?_⟩
  · refine (map_set_same (fun w : Worker F => w.ID) hw ?_).trans h.ids_eq
    rfl
  · simp only [resident, inHand]
    rw [hH2, hR2, ← hc, hH1, hR1]
    simp only [Pc.inHand, ← Multiset.cons_coe, ← Multiset.singleton_add, Multiset.coe_nil]
    abel
  · intro w1 wk hwk hpc1
    by_cases hww : w = w1
    · subst hww
      simp only [getElem?_set_at hpc] at hpc1
      simp at hpc1
    · simp only [List.getElem?_set_ne hww] at hpc1 hwk
      exact h.empty_own w1 wk hwk hpc1

theorem inv_send {env : GoEnv F} {ids : List Int} {tasks : List (Task F)}
    {content : List (Content F)} {s s1 : RunState F} {w : Nat} (h : Inv ids tasks s)
    (hst : step env tasks content (Action.send w) s = some s1) : Inv ids tasks s1 := by
  obtain ⟨_, hge, task, worker, hpc, hw, hcase⟩ := step_send_inv hst
  obtain ⟨restH, hH1, hH2⟩ := sum_map_set (fun pc : Pc F => (pc.inHand : Multiset (Task F)))
    _ _ _ hpc
  have hc := h.conserve
  simp only [resident, inHand, emitted] at hc
  rcases hcase with ⟨_, rfl⟩ | ⟨printed, value, _, rfl⟩
  · exact ⟨h.ids_eq, h.pcs_len, h.next_le, h.idle, h.conserve, h.empty_own⟩
  · refine ⟨h.ids_eq, by simpa using h.pcs_len, h.next_le,
      fun hlt => absurd hlt (not_lt.2 hge), ?_, ?_⟩
    · simp only [resident, inHand, emitted]
      rw [hH2, ← hc, hH1, List.map_append]
      simp only [Pc.inHand, ← Multiset.coe_add, List.map_cons, List.map_nil, Multiset.coe_nil]
      abel
    · intro w1 wk hwk hpc1
      by_cases hww : w = w1
      · subst hww
        simp only [getElem?_set_at hpc] at hpc1
        simp at hpc1
      · simp only [List.getElem?_set_ne hww] at hpc1
        exact h.empty_own w1 wk hwk hpc1


theorem inv_steal {env : GoEnv F} {ids : List Int} {tasks : List (Task F)}
    {content : List (Content F)} {s s1 : RunState F} {w v : Nat} (h : Inv ids tasks s)
    (hst : step env tasks content (Action.steal w v) s = some s1) : Inv ids tasks s1 := by
  obtain ⟨_, hge, hpc, worker, other, hw, hv, hcase⟩ := step_steal_inv hst
  obtain ⟨restH, hH1, hH2⟩ := sum_map_set (fun pc : Pc F => (pc.inHand : Multiset (Task F)))
    _ _ _ hpc
  obtain ⟨restR, hR1, hR2⟩ := sum_map_set (fun w : Worker F => (w.Deque.items : Multiset (Task F)))
    _ _ _ hv
  have hc := h.conserve
  simp only [resident, inHand] at hc
  rcases hcase with ⟨hne, t, rest, hitems, rfl⟩ | ⟨_, rfl⟩
  · have hvw : v ≠ w := by
      rintro rfl
      rw [hw] at hv
      cases hv
      exact hne rfl
    refine ⟨?_, by simpa using h.pcs_len, h.next_le,
      fun hlt => absurd hlt (not_lt.2 hge), ?_, ?_⟩
    · refine (map_set_same (fun w : Worker F => w.ID) hv ?_).trans h.ids_eq
      rfl
    · simp only [resident, inHand]
      rw [hH2, hR2, ← hc, hH1, hR1, hitems]
      simp only [Pc.inHand, ← Multiset.coe_add, Multiset.coe_nil]
      abel
    · intro w1 wk hwk hpc1
      by_cases hww : w = w1
      · subst hww
        simp only [List.getElem?_set_ne hvw] at hwk
        rw [hw] at hwk
        cases hwk
        exact h.empty_own w _ hw (Or.inl hpc)
      · simp only [List.getElem?_set_ne hww] at hpc1
        by_cases hvv : v = w1
        · subst hvv
          have := h.empty_own v other hv hpc1
          rw [hitems] at this
          simp at this
        · simp only [List.getElem?_set_ne hvv] at hwk
          exact h.empty_own w1 wk hwk hpc1
  · refine ⟨h.ids_eq, by simpa using h.pcs_len, h.next_le,
      fun hlt => absurd hlt (not_lt.2 hge), ?_, ?_⟩
    · simp only [resident, inHand]
      rw [hH2, ← hc, hH1]
      rfl
    · intro w1 wk hwk hpc1
      by_cases hww : w = w1
      · subst hww
        simp only [getElem?_set_at hpc] at hpc1
        simp at hpc1
      · simp only [List.getElem?_set_ne hww] at hpc1
        exact h.empty_own w1 wk hwk hpc1

theorem inv_step {env : GoEnv F} {ids : List Int} {tasks : List (Task F)}
    {content : List (Content F)} {s s1 : RunState F} (a : Action) (h : Inv ids tasks s)
    (hst : step env tasks content a s = some s1) : Inv ids tasks s1 := by
  cases a with
  | distribute => exact inv_distribute h hst
  | popFront w => exact inv_popFront h hst
  | steal w v => exact inv_steal h hst
  | pushFront w => exact inv_pushFront h hst
  | send w => exact inv_send h hst

theorem inv_of_reachable {env : GoEnv F} {ids : List Int} {tasks : List (Task F)}
    {content : List (Content F)} {s : RunState F} (h : Reachable env ids tasks content s) :
    Inv ids tasks s :=
  Reachable.induct (inv_init ids tasks) (fun _ a _ _ hP hst => inv_step a hP hst) s h

theorem sent_shape {env : GoEnv F} {ids : List Int} {tasks : List (Task F)}
    {content : List (Content F)} {s : RunState F} (h : Reachable env ids tasks content s) :
    ∀ e ∈ s.sent, e.worker ∈ ids ∧
      ∃ printed, processTask env e.task e.worker content = some (printed, e.value) := by
  revert s
  apply Reachable.induct
  · intro e he
    simp [initState] at he
  · intro s a s1 hs ih hst e he
    have hinv := inv_of_reachable hs
    cases a with
    | distribute =>
      obtain ⟨_, task, _, hcase⟩ := step_distribute_inv hst
      rcases hcase with ⟨_, rfl⟩ | ⟨ws1, _, rfl⟩ <;> exact ih e he
    | popFront w =>
      obtain ⟨_, _, _, worker, _, hcase⟩ := step_popFront_inv hst
      rcases hcase with ⟨_, rfl⟩ | ⟨_, _, _, rfl⟩ <;> exact ih e he
    | steal w v =>
      obtain ⟨_, _, _, worker, other, _, _, hcase⟩ := step_steal_inv hst
      rcases hcase with ⟨_, _, _, _, rfl⟩ | ⟨_, rfl⟩ <;> exact ih e he
    | pushFront w =>
      obtain ⟨_, _, _, _, _, _, rfl⟩ := step_pushFront_inv hst
      exact ih e he
    | send w =>
      obtain ⟨_, _, task, worker, _, hw, hcase⟩ := step_send_inv hst
      rcases hcase with ⟨_, rfl⟩ | ⟨printed, value, hp, rfl⟩
      · exact ih e he
      · simp only [List.mem_append, List.mem_singleton] at he
        rcases he with he | rfl
        · exact ih e he
        · refine ⟨?_, printed, hp⟩
          rw [← hinv.ids_eq]
          exact List.mem_map.2 ⟨worker, List.mem_iff_getElem?.2 ⟨w, hw⟩, rfl⟩

theorem processTask_value {env : GoEnv F} {task : Task F} {workerId : Int}
    {content : List (Content F)} {printed : List String} {value : String}
    (h : processTask env task workerId content = some (printed, value)) :
    value = Itoa workerId ++ "Processing Task" ++ Itoa task.ID := by
  unfold processTask at h
  split at h
  · simp at h
  · simp only [Option.some.injEq, Prod.mk.injEq] at h
    exact h.2.symm

theorem all_isEmpty_sum {α β : Type} (f : α → List β) (l : List α)
    (h : l.all (fun a => (f a).isEmpty) = true) :
    (l.map (fun a => ((f a : List β) : Multiset β))).sum = 0 := by
  induction l with
  | nil => rfl
  | cons a l ih =>
    simp only [List.all_cons, Bool.and_eq_true, List.isEmpty_iff] at h
    rw [List.map_cons, List.sum_cons, ih h.2, h.1]
    rfl

theorem main_task_ids : (main.tasks : List (Task F)).map (fun t => t.ID) =
    [1, 2, 3, 4, 5, 6, 7, 8, 9, 10, 11, 12, 13, 14, 15] := by
  simp [main.tasks, main.taskPool, List.enum, List.enumFrom]

theorem emitted_of_finished {env : GoEnv F} {ids : List Int} {tasks : List (Task F)}
    {content : List (Content F)} {s : RunState F} (h : Reachable env ids tasks content s)
    (hfin : finished tasks s = true) :
    (s.sent.map (fun e => e.task)).Perm tasks := by
  simp only [finished, Bool.and_eq_true, decide_eq_true_eq] at hfin
  obtain ⟨⟨hle, hdq⟩, hpc⟩ := hfin
  have hc := (inv_of_reachable h).conserve
  have h1 : resident s = 0 := all_isEmpty_sum (fun w : Worker F => w.Deque.items) _ hdq
  have h2 : inHand s = 0 := all_isEmpty_sum (fun pc : Pc F => pc.inHand) _ hpc
  rw [h1, h2, List.take_of_length_le hle] at hc
  simp only [zero_add, emitted] at hc
  exact Multiset.coe_eq_coe.1 hc

theorem step_steal_eq {env : GoEnv F} {tasks : List (Task F)} {content : List (Content F)}
    {s : RunState F} {w v : Nat} {worker otherWorker : Worker F}
    (hp : s.panicked = false) (hge : tasks.length ≤ s.next)
    (hpc : s.pcs[w]? = some Pc.seeking) (hw : s.ws.Workers[w]? = some worker)
    (hv : s.ws.Workers[v]? = some otherWorker) :
    step env tasks content (Action.steal w v) s =
      if otherWorker.ID ≠ worker.ID then
        match otherWorker.Deque.PopBack with
        | some (stolenTask, d) =>
          some { s with
            ws := ⟨s.ws.Workers.set v { otherWorker with Deque := d }⟩
            pcs := s.pcs.set w (Pc.stolen stolenTask) }
        | none => some { s with pcs := s.pcs.set w Pc.top }
      else some { s with pcs := s.pcs.set w Pc.top } := by
  simp only [step, hp, not_lt.2 hge, hpc, hw, hv]
  by_cases hid : otherWorker.ID = worker.ID
  · simp [hid]
  · cases hpop : otherWorker.Deque.PopBack with
    | none => simp [hid]
    | some p =>
      cases p
      simp [hid]

theorem step_pushFront_eq {env : GoEnv F} {tasks : List (Task F)} {content : List (Content F)}
    {s : RunState F} {w : Nat} {worker : Worker F} {t : Task F}
    (hp : s.panicked = false) (hge : tasks.length ≤ s.next)
    (hpc : s.pcs[w]? = some (Pc.stolen t)) (hw : s.ws.Workers[w]? = some worker) :
    step env tasks content (Action.pushFront w) s =
      some { s with
        ws := ⟨s.ws.Workers.set w { worker with Deque := worker.Deque.PushFront t }⟩
        pcs := s.pcs.set w Pc.top } := by
  simp only [step, hp, not_lt.2 hge, hpc, hw]
  simp

theorem step_popFront_eq {env : GoEnv F} {tasks : List (Task F)} {content : List (Content F)}
    {s : RunState F} {w : Nat} {worker : Worker F}
    (hp : s.panicked = false) (hge : tasks.length ≤ s.next)
    (hpc : s.pcs[w]? = some Pc.top) (hw : s.ws.Workers[w]? = some worker) :
    step env tasks content (Action.popFront w) s =
      match worker.Deque.PopFront with
      | none => some { s with pcs := s.pcs.set w Pc.seeking }
      | some (task, d) =>
        some { s with
          ws := ⟨s.ws.Workers.set w { worker with Deque := d }⟩
          pcs := s.pcs.set w (Pc.holding task) } := by
  simp only [step, hp, not_lt.2 hge, hpc, hw]
  cases hpop : worker.Deque.PopFront with
  | none => simp
  | some p =>
    cases p
    simp

theorem step_send_eq {env : GoEnv F} {tasks : List (Task F)} {content : List (Content F)}
    {s : RunState F} {w : Nat} {worker : Worker F} {task : Task F}
    (hp : s.panicked = false) (hge : tasks.length ≤ s.next)
    (hpc : s.pcs[w]? = some (Pc.holding task)) (hw : s.ws.Workers[w]? = some worker) :
    step env tasks content (Action.send w) s =
      match processTask env task worker.ID content with
      | none => some { s with panicked := true }
      | some (_, value) =>
        some { s with
          sent := s.sent ++ [⟨worker.ID, task, value⟩]
          pcs := s.pcs.set w Pc.top } := by
  simp only [step, hp, not_lt.2 hge, hpc, hw]
  cases hpop : processTask env task worker.ID content with
  | none => simp
  | some p =>
    cases p
    simp

theorem next_ge_of_pc {ids : List Int} {tasks : List (Task F)} {s : RunState F}
    (h : Inv ids tasks s) {w : Nat} {pc : Pc F} (hpc : s.pcs[w]? = some pc) (hne : pc ≠ Pc.top) :
    tasks.length ≤ s.next := by
  by_contra hlt
  exact hne (h.idle (not_le.1 hlt) pc (List.mem_iff_getElem?.2 ⟨w, hpc⟩))

theorem singleton_getElem? {α : Type} {a b : α} {i : Nat} (h : [a][i]? = some b) :
    i = 0 ∧ b = a := by
  cases i with
  | zero => simpa [eq_comm] using h
  | succ n => simp at h

theorem inOrder_step {env : GoEnv F} {id : Int} {tasks : List (Task F)}
    {content : List (Content F)} {s s1 : RunState F} (a : Action) (h : InOrder id tasks s)
    (hst : step env tasks content a s = some s1) : InOrder id tasks s1 := by
  obtain ⟨pc, items, hpcs, hws, hns, hord⟩ := h.shape
  cases a with
  | distribute =>
    obtain ⟨_, task, ht, hcase⟩ := step_distribute_inv hst
    rcases hcase with ⟨_, rfl⟩ | ⟨ws1, hd, rfl⟩
    · exact ⟨pc, items, hpcs, hws, hns, hord⟩
    · obtain ⟨_, worker, hw, rfl⟩ := distributeIter_eq_some hd
      rw [hws] at hw
      simp only [List.length_singleton, Nat.mod_one, List.getElem?_cons_zero,
        Option.some.injEq] at hw
      subst hw
      refine ⟨pc, items ++ [task], hpcs, ?_, hns, ?_⟩
      · simp [hws, Nat.mod_one]
      · simp only [List.take_succ, ht, Option.toList, ← hord]
        simp
  | popFront w =>
    obtain ⟨_, _, hpc, worker, hw, hcase⟩ := step_popFront_inv hst
    rw [hpcs] at hpc
    rw [hws] at hw
    obtain ⟨rfl, rfl⟩ := singleton_getElem? hpc
    obtain ⟨_, rfl⟩ := singleton_getElem? hw
    rcases hcase with ⟨_, rfl⟩ | ⟨task, rest, hitems, rfl⟩
    · exact ⟨⟨Pc.seeking, items, by simp [hpcs], hws, by simp, by simpa [Pc.inHand] using hord⟩⟩
    · simp only at hitems
      subst hitems
      exact ⟨⟨Pc.holding task, rest, by simp [hpcs], by simp [hws], by simp,
        by simpa [Pc.inHand] using hord⟩⟩
  | steal w v =>
    obtain ⟨_, _, hpc, worker, other, hw, hv, hcase⟩ := step_steal_inv hst
    rw [hpcs] at hpc
    rw [hws] at hw hv
    obtain ⟨rfl, rfl⟩ := singleton_getElem? hpc
    obtain ⟨_, rfl⟩ := singleton_getElem? hw
    obtain ⟨_, rfl⟩ := singleton_getElem? hv
    rcases hcase with ⟨hne, _⟩ | ⟨_, rfl⟩
    · exact absurd rfl hne
    · exact ⟨⟨Pc.top, items, by simp [hpcs], hws, by simp, by simpa [Pc.inHand] using hord⟩⟩
  | pushFront w =>
    obtain ⟨_, _, t, worker, hpc, _, _⟩ := step_pushFront_inv hst
    rw [hpcs] at hpc
    obtain ⟨_, hh⟩ := singleton_getElem? hpc
    exact absurd hh.symm (hns t)
  | send w =>
    obtain ⟨_, _, task, worker, hpc, hw, hcase⟩ := step_send_inv hst
    rw [hpcs] at hpc
    rw [hws] at hw
    obtain ⟨rfl, rfl⟩ := singleton_getElem? hpc
    rcases hcase with ⟨_, rfl⟩ | ⟨printed, value, _, rfl⟩
    · exact ⟨⟨_, items, hpcs, hws, hns, hord⟩⟩
    · exact ⟨⟨Pc.top, items, by simp [hpcs], hws, by simp, by simpa [Pc.inHand] using hord⟩⟩

theorem inOrder_of_reachable {env : GoEnv F} {id : Int} {tasks : List (Task F)}
    {content : List (Content F)} {s : RunState F} (h : Reachable env [id] tasks content s) :
    InOrder id tasks s :=
  Reachable.induct ⟨⟨Pc.top, [], rfl, rfl, by simp, by simp [initState, Pc.inHand]⟩⟩
    (fun _ a _ _ hP hst => inOrder_step a hP hst) s h

theorem distributeFrom_spec (ts : List (Task F)) :
    ∀ (i : Nat) (ws : WorkStealingScheduler F), 0 < ws.Workers.length →
      ∃ ws1, Run.distributeFrom i ts ws = some ws1 ∧
        ws1.Workers.map (fun w => w.ID) = ws.Workers.map (fun w => w.ID) ∧
        (ws1.Workers.map (fun w => (w.Deque.items : Multiset (Task F)))).sum =
          (ws.Workers.map (fun w => (w.Deque.items : Multiset (Task F)))).sum +
            (ts : Multiset (Task F)) ∧
        ∀ (k : Nat) (worker : Worker F), ws.Workers[k]? = some worker →
          ∃ worker1, ws1.Workers[k]? = some worker1 ∧
            worker1.Deque.items = worker.Deque.items ++
              ((ts.enumFrom i).filter (fun p => decide (p.1 % ws.Workers.length = k))).map
                (fun p => p.2) := by
  induction ts with
  | nil =>
    intro i ws _
    exact ⟨ws, rfl, rfl, by simp, fun k worker hk => ⟨worker, hk, by simp⟩⟩
  | cons t ts ih =>
    intro i ws hpos
    obtain ⟨ws0, hd⟩ := distributeIter_isSome i t hpos
    obtain ⟨_, w0, hw0, rfl⟩ := distributeIter_eq_some hd
    have hlen : (ws.Workers.set (i % ws.Workers.length)
        { w0 with Deque := ⟨w0.Deque.items ++ [t]⟩ }).length = ws.Workers.length := by simp
    obtain ⟨ws1, h1, hids, hsum, hdq⟩ := ih (i + 1)
      ⟨ws.Workers.set (i % ws.Workers.length) { w0 with Deque := ⟨w0.Deque.items ++ [t]⟩ }⟩
      (by simpa using hpos)
    refine ⟨ws1, ?_, ?_, ?_, ?_⟩
    · simp only [Run.distributeFrom, hd]
      exact h1
    · rw [hids]
      refine map_set_same (fun w : Worker F => w.ID) hw0 ?_
      rfl
    · obtain ⟨rest, hr1, hr2⟩ := sum_map_set
        (fun w : Worker F => (w.Deque.items : Multiset (Task F))) _ _ _ hw0
      rw [hsum, hr2, hr1]
      simp only [← Multiset.coe_add, ← Multiset.cons_coe, ← Multiset.singleton_add,
        Multiset.coe_nil]
      abel
    · intro k worker hk
      simp only [hlen] at hdq
      by_cases hik : i % ws.Workers.length = k
      · subst hik
        rw [hw0] at hk
        cases hk
        obtain ⟨worker1, hk1, hitems⟩ := hdq _ _ (getElem?_set_at hw0)
        refine ⟨worker1, hk1, ?_⟩
        rw [hitems]
        simp [List.enumFrom]
      · obtain ⟨worker1, hk1, hitems⟩ := hdq k worker (by rw [List.getElem?_set_ne hik]; exact hk)
        refine ⟨worker1, hk1, ?_⟩
        rw [hitems]
        simp [List.enumFrom, hik]

theorem candidates_nil (sqrt : F → F) (user : ShopingCart F) :
    candidates sqrt user [] = [] := rfl

theorem Similarity.loop_foldl (features1 features2 : GoMap F) (keys : List String)
    (acc : F × F × F) :
    keys.foldl
      (fun acc key =>
        (acc.1 + features1.get key * features2.get key,
         acc.2.1 + features1.get key ^ 2,
         acc.2.2 + features2.get key ^ 2))
      acc =
    (acc.1 + (keys.map (fun k => features1.get k * features2.get k)).sum,
     acc.2.1 + (keys.map (fun k => features1.get k ^ 2)).sum,
     acc.2.2 + (keys.map (fun k => features2.get k ^ 2)).sum) := by
  induction keys generalizing acc with
  | nil => simp
  | cons k keys ih =>
    rw [List.foldl_cons, ih]
    simp only [List.map_cons, List.sum_cons, add_assoc]

theorem GoMap.sum_range {V : Type} (m : GoMap V) (f : String → F) :
    (m.range.map f).sum = ∑ k ∈ m.keys, f k := by
  unfold GoMap.range
  rw [← List.sum_toFinset f (Finset.sort_nodup _ _), Finset.sort_toFinset]

theorem Similarity.loop_range (features1 features2 : GoMap F) :
    Similarity.loop features1 features2 features1.range =
      (∑ k ∈ features1.keys, features1.get k * features2.get k,
       ∑ k ∈ features1.keys, features1.get k ^ 2,
       ∑ k ∈ features1.keys, features2.get k ^ 2) := by
  unfold Similarity.loop
  rw [Similarity.loop_foldl]
  simp only [GoMap.sum_range, zero_add]

theorem Similarity_eq (sqrt : F → F) (features1 features2 : GoMap F) :
    Similarity sqrt features1 features2 =
      if sqrt (∑ k ∈ features1.keys, features1.get k ^ 2) = 0 ∨
          sqrt (∑ k ∈ features1.keys, features2.get k ^ 2) = 0 then 0
      else (∑ k ∈ features1.keys, features1.get k * features2.get k) /
        (sqrt (∑ k ∈ features1.keys, features1.get k ^ 2) *
          sqrt (∑ k ∈ features1.keys, features2.get k ^ 2)) := by
  unfold Similarity
  simp only [Similarity.loop_range]

theorem asymmetry_values :
    Similarity Real.sqrt (asymmetry.f1 : GoMap ℝ) asymmetry.f2 = 1 ∧
    Similarity Real.sqrt (asymmetry.f2 : GoMap ℝ) asymmetry.f1 = 1 / Real.sqrt 2 := by
  have hab : ("b" : String) ≠ "a" := by decide
  have hab2 : ("a" : String) ≠ "b" := by decide
  constructor
  · rw [Similarity_eq]
    simp [asymmetry.f1, asymmetry.f2, GoMap.ofList, GoMap.set, GoMap.empty, GoMap.get, hab, hab2]
  · rw [Similarity_eq]
    have h2 : Real.sqrt 2 ≠ 0 := by positivity
    simp [asymmetry.f1, asymmetry.f2, GoMap.ofList, GoMap.set, GoMap.empty, GoMap.get, hab, hab2,
      Finset.sum_insert, h2]
    norm_num

theorem contains_eq_true (items : List (Content F)) (itemID : String) :
    contains items itemID = true ↔ itemID ∈ items.map (fun item => item.ID) := by
  induction items with
  | nil => simp [contains]
  | cons item rest ih =>
    unfold contains
    by_cases h : item.ID = itemID
    · simp [h]
    · simp only [h, if_false, ih, List.map_cons, List.mem_cons]
      constructor
      · exact Or.inr
      · rintro (h1 | h1)
        · exact absurd h1.symm h
        · exact h1

theorem candidates_eq (sqrt : F → F) (user : ShopingCart F) (content : List (Content F)) :
    candidates sqrt user content =
      (content.filter (fun item => decide (item.ID ∉ user.Items.map (fun i => i.ID)))).map
        (fun item => ⟨item.ID, Similarity sqrt (CartFeatures user) item.Features⟩) := by
  unfold candidates
  have key : ∀ (l : List (Content F)) (acc : List (result F)),
      l.foldl
        (fun similarItems item =>
          if !contains user.Items item.ID then
            similarItems ++ [⟨item.ID, Similarity sqrt (CartFeatures user) item.Features⟩]
          else similarItems)
        acc =
      acc ++ (l.filter (fun item => decide (item.ID ∉ user.Items.map (fun i => i.ID)))).map
        (fun item => ⟨item.ID, Similarity sqrt (CartFeatures user) item.Features⟩) := by
    intro l
    induction l with
    | nil => simp
    | cons item rest ih =>
      intro acc
      rw [List.foldl_cons, ih]
      by_cases hc : item.ID ∈ user.Items.map (fun i => i.ID)
      · have : contains user.Items item.ID = true := (contains_eq_true _ _).2 hc
        rw [List.filter_cons_of_neg (by simpa using hc)]
        simp only [this, Bool.not_true, Bool.false_eq_true, if_false]
      · have : contains user.Items item.ID = false := by
          rw [← Bool.not_eq_true, contains_eq_true]
          exact hc
        rw [List.filter_cons_of_pos (by simpa using hc)]
        simp only [this, Bool.not_false, if_true, List.map_cons, List.append_assoc,
          List.singleton_append]
  simpa using key content []

theorem sliceTo_of_le (s : List (result F)) (cap : Nat) (topN : Int) (h0 : 0 ≤ topN)
    (hlen : topN ≤ (s.length : Int)) (hcap : s.length ≤ cap) :
    sliceTo s cap topN = some (s.take topN.toNat) := by
  unfold sliceTo
  have h1 : ¬ (topN < 0 ∨ (cap : Int) < topN) := by
    rintro (h | h)
    · omega
    · omega
  rw [if_neg h1]
  have h2 : topN.toNat - s.length = 0 := by omega
  rw [h2]
  simp

theorem le_sliceCap (env : GoEnv F) (len : Nat) : len ≤ sliceCap env len := by
  unfold sliceCap
  split
  · omega
  · exact le_max_left _ _

theorem Reachable.exec {env : GoEnv F} {ids : List Int} {tasks : List (Task F)}
    {content : List (Content F)} {s s1 : RunState F} (acts : List Action)
    (hs : Reachable env ids tasks content s)
    (h : Recommend.exec env tasks content acts s = some s1) :
    Reachable env ids tasks content s1 := by
  obtain ⟨acts0, h0⟩ := hs
  refine ⟨acts0 ++ acts, ?_⟩
  rw [exec_append, h0]
  exact h

theorem exec_distribute_all {env : GoEnv F} {tasks : List (Task F)} {content : List (Content F)}
    (rest : List (Task F)) :
    ∀ (s : RunState F) (ws1 : WorkStealingScheduler F),
      s.panicked = false → (∀ j, rest[j]? = tasks[s.next + j]?) →
      Run.distributeFrom s.next rest s.ws = some ws1 →
      exec env tasks content (List.replicate rest.length Action.distribute) s =
        some { s with ws := ws1, next := s.next + rest.length } := by
  induction rest with
  | nil =>
    intro s ws1 _ _ hd
    simp only [Run.distributeFrom, Option.some.injEq] at hd
    subst hd
    rfl
  | cons t rest ih =>
    intro s ws1 hp hidx hd
    have ht : tasks[s.next]? = some t := by
      have := hidx 0
      simp only [List.getElem?_cons_zero, Nat.add_zero] at this
      rw [← this]
    simp only [Run.distributeFrom] at hd
    cases hit : Run.distributeIter s.ws s.next t with
    | none => simp [hit] at hd
    | some ws0 =>
      simp only [hit] at hd
      have hstep : step env tasks content Action.distribute s =
          some { s with ws := ws0, next := s.next + 1 } := by
        simp only [step, hp, ht, hit]
        simp
      have hidx1 : ∀ j, rest[j]? = tasks[s.next + 1 + j]? := by
        intro j
        have := hidx (j + 1)
        simp only [List.getElem?_cons_succ] at this
        rw [this]
        congr 1
        omega
      have := ih { s with ws := ws0, next := s.next + 1 } ws1 hp hidx1 hd
      simp only [List.length_cons, List.replicate_succ, exec, hstep, this]
      simp only [Option.some.injEq]
      congr 1
      omega

theorem set_same {α : Type} {l : List α} {i : Nat} {a : α} (h : l[i]? = some a) :
    l.set i a = l := by
  have := map_set_same (fun x : α => x) h (rfl : a = a)
  simpa using this

theorem exec_drain {env : GoEnv F} {tasks : List (Task F)} {content : List (Content F)}
    (w : Nat) (l : List (Task F)) :
    ∀ (s : RunState F) (worker : Worker F), s.panicked = false → tasks.length ≤ s.next →
      s.pcs[w]? = some Pc.top → s.ws.Workers[w]? = some worker → worker.Deque.items = l →
      (∀ t ∈ l, (processTask env t worker.ID content).isSome = true) →
      ∃ acts s1, exec env tasks content acts s = some s1 ∧ s1.panicked = false ∧
        s1.next = s.next ∧ s1.pcs = s.pcs ∧
        s1.ws.Workers = s.ws.Workers.set w { worker with Deque := ⟨[]⟩ } ∧
        s1.sent.map (fun e => e.task) = s.sent.map (fun e => e.task) ++ l := by
  induction l with
  | nil =>
    intro s worker hp _ _ hw hitems _
    refine ⟨[], s, rfl, hp, rfl, rfl, ?_, by simp⟩
    have : ({ worker with Deque := ⟨[]⟩ } : Worker F) = worker := by
      cases worker with
      | mk id dq =>
        cases dq with
        | mk items =>
          simp only at hitems
          subst hitems
          rfl
    rw [this, set_same hw]
  | cons t l ih =>
    intro s worker hp hge hpc hw hitems hok
    have hpop : worker.Deque.PopFront = some (t, ⟨l⟩) := (Deque.PopFront_eq_some _ _ _).2 hitems
    have h1 := @step_popFront_eq F _ env tasks content s w worker hp hge hpc hw
    rw [hpop] at h1
    simp only at h1
    obtain ⟨pv, hpv⟩ := Option.isSome_iff_exists.1 (hok t (List.mem_cons_self _ _))
    obtain ⟨printed, value⟩ := pv
    have h2 := @step_send_eq F _ env tasks content
      { s with
        ws := ⟨s.ws.Workers.set w { worker with Deque := ⟨l⟩ }⟩
        pcs := s.pcs.set w (Pc.holding t) }
      w { worker with Deque := ⟨l⟩ } t hp hge (getElem?_set_at hpc) (getElem?_set_at hw)
    simp only [hpv] at h2
    have hpcs : (s.pcs.set w (Pc.holding t)).set w Pc.top = s.pcs := by
      rw [List.set_set, set_same hpc]
    rw [hpcs] at h2
    obtain ⟨acts, s1, hex, hp1, hn1, hpc1, hws1, hsent1⟩ := ih
      { s with
        ws := ⟨s.ws.Workers.set w { worker with Deque := ⟨l⟩ }⟩
        sent := s.sent ++ [⟨worker.ID, t, value⟩] }
      { worker with Deque := ⟨l⟩ } hp hge hpc (getElem?_set_at hw) rfl
      (fun t1 ht1 => hok t1 (List.mem_cons_of_mem _ ht1))
    refine ⟨Action.popFront w :: Action.send w :: acts, s1, ?_, hp1, hn1, hpc1, ?_, ?_⟩
    · simp only [exec, h1, h2]
      exact hex
    · rw [hws1]
      simp [List.set_set]
    · rw [hsent1]
      simp

theorem exec_drain_upto {env : GoEnv F} {ids : List Int} {tasks : List (Task F)}
    {content : List (Content F)}
    (hok : ∀ t ∈ tasks, ∀ id ∈ ids, (processTask env t id content).isSome = true) :
    ∀ k, k ≤ ids.length → ∀ s0 : RunState F, Reachable env ids tasks content s0 →
      s0.panicked = false → tasks.length ≤ s0.next → (∀ pc ∈ s0.pcs, pc = Pc.top) →
      ∃ s, Reachable env ids tasks content s ∧ s.panicked = false ∧
        tasks.length ≤ s.next ∧ (∀ pc ∈ s.pcs, pc = Pc.top) ∧
        ∀ (j : Nat) (worker : Worker F), s.ws.Workers[j]? = some worker → j < k →
          worker.Deque.items = [] := by
  intro k
  induction k with
  | zero =>
    intro _ s0 h0 hp hge htop
    exact ⟨s0, h0, hp, hge, htop, fun j _ _ hj => absurd hj (Nat.not_lt_zero j)⟩
  | succ k ih =>
    intro hk s0 h0 hp0 hge0 htop0
    obtain ⟨s, hs, hp, hge, htop, hemp⟩ := ih (Nat.le_of_succ_le hk) s0 h0 hp0 hge0 htop0
    have hinv := inv_of_reachable hs
    have hlen : s.ws.Workers.length = ids.length := by
      rw [← hinv.ids_eq, List.length_map]
    obtain ⟨worker, hw⟩ : ∃ wk, s.ws.Workers[k]? = some wk :=
      ⟨_, List.getElem?_eq_getElem (by rw [hlen]; exact hk)⟩
    obtain ⟨pc, hpc⟩ : ∃ pc, s.pcs[k]? = some pc :=
      ⟨_, List.getElem?_eq_getElem (by rw [hinv.pcs_len]; exact hk)⟩
    have hpctop : pc = Pc.top := htop pc (List.mem_iff_getElem?.2 ⟨k, hpc⟩)
    subst hpctop
    have hid : worker.ID ∈ ids := by
      rw [← hinv.ids_eq]
      exact List.mem_map.2 ⟨worker, List.mem_iff_getElem?.2 ⟨k, hw⟩, rfl⟩
    have hsub : ∀ t ∈ worker.Deque.items, t ∈ tasks := by
      intro t ht
      have hc := hinv.conserve
      rw [List.take_of_length_le hge] at hc
      obtain ⟨rest, hr1, _⟩ := sum_map_set
        (fun w : Worker F => (w.Deque.items : Multiset (Task F))) _ _ _ hw
      have hmem : t ∈ resident s + inHand s + emitted s := by
        simp only [resident, hr1]
        simp only [Multiset.mem_add, Multiset.mem_coe]
        exact Or.inl (Or.inl (Or.inl ht))
      rw [hc] at hmem
      exact Multiset.mem_coe.1 hmem
    obtain ⟨acts, s1, hex, hp1, hn1, hpc1, hws1, _⟩ := exec_drain k worker.Deque.items s worker
      hp hge hpc hw rfl (fun t ht => hok t (hsub t ht) _ hid)
    refine ⟨s1, Reachable.exec acts hs hex, hp1, by rw [hn1]; exact hge, by rw [hpc1]; exact htop,
      ?_⟩
    intro j wk hj hjk
    rw [hws1] at hj
    by_cases hkj : k = j
    · subst hkj
      rw [getElem?_set_at hw] at hj
      cases hj
      rfl
    · rw [List.getElem?_set_ne hkj] at hj
      exact hemp j wk hj (by omega)

theorem exists_finished {env : GoEnv F} {ids : List Int} {tasks : List (Task F)}
    {content : List (Content F)} (hn : 1 ≤ ids.length)
    (hok : ∀ t ∈ tasks, ∀ id ∈ ids, (processTask env t id content).isSome = true) :
    ∃ s, Reachable env ids tasks content s ∧ finished tasks s = true ∧ s.panicked = false := by
  have hpos : 0 < (initState ids : RunState F).ws.Workers.length := by
    simpa [initState] using hn
  obtain ⟨ws1, hd, _⟩ := distributeFrom_spec tasks 0 (initState ids : RunState F).ws hpos
  have hex := @exec_distribute_all F _ env tasks content tasks (initState ids) ws1 rfl
    (fun j => by simp [initState]) hd
  have hreach := Reachable.exec _ (Reachable.start env ids tasks content) hex
  obtain ⟨s, hs, hp, hge, htop, hemp⟩ := exec_drain_upto hok ids.length le_rfl _ hreach rfl
    (by simp [initState]) (by
      intro pc hpc
      simp only [initState, List.mem_map] at hpc
      obtain ⟨_, _, rfl⟩ := hpc
      rfl)
  refine ⟨s, hs, ?_, hp⟩
  have hinv := inv_of_reachable hs
  have hlen : s.ws.Workers.length = ids.length := by
    rw [← hinv.ids_eq, List.length_map]
  simp only [finished, Bool.and_eq_true, decide_eq_true_eq, List.all_eq_true, List.isEmpty_iff]
  refine ⟨⟨hge, ?_⟩, ?_⟩
  · intro wk hwk
    obtain ⟨j, hj⟩ := List.mem_iff_getElem?.1 hwk
    exact hemp j wk hj (by rw [← hlen]; exact (List.getElem?_eq_some.1 hj).1)
  · intro pc hpc
    rw [htop pc hpc]
    rfl

theorem reachable_getD {env : GoEnv F} {ids : List Int} {tasks : List (Task F)}
    {content : List (Content F)} (acts : List Action)
    (h : (exec env tasks content acts (initState ids)).isSome = true) :
    Reachable env ids tasks content
      ((exec env tasks content acts (initState ids)).getD (initState ids)) := by
  refine ⟨acts, ?_⟩
  cases h1 : exec env tasks content acts (initState ids) with
  | none =>
    rw [h1] at h
    cases h
  | some s => rfl

theorem step_leaves {env : GoEnv F} {tasks : List (Task F)} {content : List (Content F)}
    {s s1 : RunState F} {w : Nat} (a : Action) (ha : a.leaves w = true)
    (hst : step env tasks content a s = some s1) :
    s1.ws.Workers[w]? = s.ws.Workers[w]? ∧ s1.pcs[w]? = s.pcs[w]? ∧ s1.next = s.next := by
  cases a with
  | distribute => simp [Action.leaves] at ha
  | popFront u =>
    have hu : u ≠ w := by simpa [Action.leaves] using ha
    obtain ⟨_, _, _, worker, _, hcase⟩ := step_popFront_inv hst
    rcases hcase with ⟨_, rfl⟩ | ⟨_, _, _, rfl⟩
    · exact ⟨rfl, List.getElem?_set_ne hu, rfl⟩
    · exact ⟨List.getElem?_set_ne hu, List.getElem?_set_ne hu, rfl⟩
  | steal u v =>
    have huv : u ≠ w ∧ v ≠ w := by simpa [Action.leaves] using ha
    obtain ⟨_, _, _, worker, other, _, _, hcase⟩ := step_steal_inv hst
    rcases hcase with ⟨_, _, _, _, rfl⟩ | ⟨_, rfl⟩
    · exact ⟨List.getElem?_set_ne huv.2, List.getElem?_set_ne huv.1, rfl⟩
    · exact ⟨rfl, List.getElem?_set_ne huv.1, rfl⟩
  | pushFront u =>
    have hu : u ≠ w := by simpa [Action.leaves] using ha
    obtain ⟨_, _, _, _, _, _, rfl⟩ := step_pushFront_inv hst
    exact ⟨List.getElem?_set_ne hu, List.getElem?_set_ne hu, rfl⟩
  | send u =>
    have hu : u ≠ w := by simpa [Action.leaves] using ha
    obtain ⟨_, _, _, _, _, _, hcase⟩ := step_send_inv hst
    rcases hcase with ⟨_, rfl⟩ | ⟨_, _, _, rfl⟩
    · exact ⟨rfl, rfl, rfl⟩
    · exact ⟨rfl, List.getElem?_set_ne hu, rfl⟩

theorem exec_leaves {env : GoEnv F} {tasks : List (Task F)} {content : List (Content F)}
    {w : Nat} (acts : List Action) :
    ∀ (s s1 : RunState F), (∀ a ∈ acts, a.leaves w = true) →
      exec env tasks content acts s = some s1 →
      s1.ws.Workers[w]? = s.ws.Workers[w]? ∧ s1.pcs[w]? = s.pcs[w]? ∧ s1.next = s.next := by
  induction acts with
  | nil =>
    intro s s1 _ h
    simp only [exec, Option.some.injEq] at h
    subst h
    exact ⟨rfl, rfl, rfl⟩
  | cons a rest ih =>
    intro s s1 hall h
    simp only [exec] at h
    cases hst : step env tasks content a s with
    | none => simp [hst] at h
    | some s0 =>
      rw [hst] at h
      obtain ⟨h1, h2, h3⟩ := step_leaves a (hall a (List.mem_cons_self _ _)) hst
      obtain ⟨h4, h5, h6⟩ := ih s0 s1 (fun b hb => hall b (List.mem_cons_of_mem _ hb)) h
      exact ⟨h4.trans h1, h5.trans h2, h6.trans h3⟩

theorem insertBack_perm {α : Type} (less : α → α → Bool) (x : α) (l : List α) :
    (insertBack less x l).Perm (x :: l) := by
  induction l with
  | nil => exact List.Perm.refl _
  | cons y before ih =>
    unfold insertBack
    split
    · exact ((List.Perm.cons y ih).trans (List.Perm.swap x y before))
    · exact List.Perm.refl _

theorem insertBack_pairwise {α : Type} (less : α → α → Bool)
    (hasymm : ∀ a b, less a b = true → less b a = false)
    (htrans : ∀ a b c, less a b = false → less b c = false → less a c = false)
    (x : α) (l : List α) (h : l.Pairwise (fun a b => less a b = false)) :
    (insertBack less x l).Pairwise (fun a b => less a b = false) := by
  induction l with
  | nil => simp [insertBack]
  | cons y before ih =>
    rw [List.pairwise_cons] at h
    unfold insertBack
    split
    · rename_i hxy
      rw [List.pairwise_cons]
      refine ⟨?_, ih h.2⟩
      intro z hz
      rcases List.mem_cons.1 ((insertBack_perm less x before).subset hz) with rfl | hz
      · exact hasymm _ _ hxy
      · exact h.1 z hz
    · rename_i hxy
      have hxy : less x y = false := by simpa using hxy
      rw [List.pairwise_cons, List.pairwise_cons]
      refine ⟨?_, h.1, h.2⟩
      intro z hz
      rcases List.mem_cons.1 hz with rfl | hz
      · exact hxy
      · exact htrans _ _ _ hxy (h.1 z hz)

theorem insertionSort_func_spec {α : Type} (less : α → α → Bool)
    (hasymm : ∀ a b, less a b = true → less b a = false)
    (htrans : ∀ a b c, less a b = false → less b c = false → less a c = false)
    (l : List α) :
    (insertionSort_func less l).Perm l ∧
      (insertionSort_func less l).Pairwise (fun a b => less b a = false) := by
  have key : ∀ (l acc : List α), acc.Pairwise (fun a b => less a b = false) →
      (l.foldl (fun sortedRev x => insertBack less x sortedRev) acc).Perm (l.reverse ++ acc) ∧
      (l.foldl (fun sortedRev x => insertBack less x sortedRev) acc).Pairwise
        (fun a b => less a b = false) := by
    intro l
    induction l with
    | nil => intro acc hacc; exact ⟨by simp, hacc⟩
    | cons x l ih =>
      intro acc hacc
      obtain ⟨hp, hs⟩ := ih (insertBack less x acc) (insertBack_pairwise less hasymm htrans x acc hacc)
      refine ⟨?_, hs⟩
      rw [List.foldl_cons]
      refine hp.trans ?_
      rw [List.reverse_cons, List.append_assoc]
      exact List.Perm.append_left _ (insertBack_perm less x acc)
  obtain ⟨hp, hs⟩ := key l [] List.Pairwise.nil
  unfold insertionSort_func
  refine ⟨(List.reverse_perm _).trans ?_, ?_⟩
  · have hp2 : (l.foldl (fun sortedRev x => insertBack less x sortedRev) []).Perm l.reverse := by
      simpa using hp
    exact hp2.trans (List.reverse_perm l)
  · rw [List.pairwise_reverse]
    exact hs

theorem shortSliceEnv_sortSpec (sqrt : F → F) : SortSpec (shortSliceEnv sqrt) := by
  intro l
  refine insertionSort_func_spec scoreLess ?_ ?_ l
  · intro a b hab
    simp only [scoreLess, decide_eq_true_eq, decide_eq_false_iff_not, not_lt, gt_iff_lt] at hab ⊢
    exact le_of_lt hab
  · intro a b c hab hbc
    simp only [scoreLess, decide_eq_false_iff_not, not_lt, gt_iff_lt] at hab hbc ⊢
    exact le_trans hab hbc


theorem GoMap.range_of_keys {V : Type} (m : GoMap V) (k : String) (h : m.keys = {k}) :
    m.range = [k] := by
  unfold GoMap.range
  rw [h, Finset.sort_singleton]

theorem GoMap.keys_single {V : Type} [Zero V] (k : String) (v : V) :
    (GoMap.ofList [(k, v)]).keys = {k} := by
  simp [GoMap.ofList, GoMap.set, GoMap.empty]

theorem GoMap.get_single {V : Type} [Zero V] (k : String) (v : V) :
    (GoMap.ofList [(k, v)]).get k = v := by
  simp [GoMap.ofList, GoMap.set, GoMap.empty, GoMap.get]

theorem GoMap.get_set {V : Type} [Zero V] (m : GoMap V) (k : String) (v : V) :
    (m.set k v).get k = v := by
  simp [GoMap.set, GoMap.get]

theorem GoMap.get_empty {V : Type} [Zero V] (k : String) : (GoMap.empty : GoMap V).get k = 0 := by
  simp [GoMap.empty, GoMap.get]

theorem CartFeatures_single {G : Type} [Zero G] [Add G] [Div G] [NatCast G]
    (uid id k : String) (v : G) :
    (CartFeatures ⟨uid, [⟨id, GoMap.ofList [(k, v)]⟩]⟩).range = [k] ∧
    (CartFeatures ⟨uid, [⟨id, GoMap.ofList [(k, v)]⟩]⟩).get k =
      (0 + v) / (((0 + 1 : Nat) : Nat) : G) := by
  have hr : (GoMap.ofList [(k, v)]).range = [k] :=
    GoMap.range_of_keys _ k (GoMap.keys_single k v)
  have hk : ((GoMap.empty : GoMap G).set k (0 + v)).keys = {k} := by
    simp [GoMap.set, GoMap.empty]
  have hr1 : ((GoMap.empty : GoMap G).set k (0 + v)).range = [k] := GoMap.range_of_keys _ k hk
  have hc : CartFeatures ⟨uid, [⟨id, GoMap.ofList [(k, v)]⟩]⟩ =
      ((GoMap.empty : GoMap G).set k (0 + v)).set k ((0 + v) / (((0 + 1 : Nat) : Nat) : G)) := by
    unfold CartFeatures
    simp only [List.foldl, hr, GoMap.get_single, GoMap.get_empty, hr1, GoMap.get_set]
  rw [hc]
  refine ⟨GoMap.range_of_keys _ k ?_, GoMap.get_set _ _ _⟩
  simp [GoMap.set, GoMap.empty]

theorem Similarity_single {G : Type} [Zero G] [Add G] [Mul G] [Div G] [Pow G ℕ]
    [DecidableEq G] (sqrt : G → G) (features1 features2 : GoMap G) (k : String)
    (h : features1.range = [k]) :
    Similarity sqrt features1 features2 =
      if sqrt (0 + features1.get k ^ 2) = 0 ∨ sqrt (0 + features2.get k ^ 2) = 0 then 0
      else (0 + features1.get k * features2.get k) /
        (sqrt (0 + features1.get k ^ 2) * sqrt (0 + features2.get k ^ 2)) := by
  unfold Similarity Similarity.loop
  rw [h]
  rfl


theorem Float64.add_def (a b : Float64) : a + b = Float64.add a b := rfl
theorem Float64.mul_def (a b : Float64) : a * b = Float64.mul a b := rfl
theorem Float64.div_def (a b : Float64) : a / b = Float64.div a b := rfl
theorem Float64.pow_def (a : Float64) (n : Nat) : a ^ n = Float64.pow a n := rfl
theorem Float64.zero_def : (0 : Float64) = Float64.fin 0 := rfl
theorem Float64.natCast_def (n : Nat) : (n : Float64) = Float64.fin n := rfl

theorem Float64.sqrt_four : Float64.sqrt (Float64.fin 4) = Float64.fin 2 := by
  have h1 : Float64.natSqrt 4 = 2 := by decide
  have h2 : Float64.natSqrt 1 = 1 := by decide
  have h3 : ((4 : ℚ)).num.toNat = 4 := rfl
  have h4 : ((4 : ℚ)).den = 1 := rfl
  simp only [Float64.sqrt, h3, h4, h1, h2]
  norm_num

theorem Float64.sqrt_one : Float64.sqrt (Float64.fin 1) = Float64.fin 1 := by
  have h2 : Float64.natSqrt 1 = 1 := by decide
  simp [Float64.sqrt, h2]

theorem overflow_user :
    (CartFeatures overflow.cart).range = ["a"] ∧ (CartFeatures overflow.cart).get "a" = Float64.fin 2 := by
  obtain ⟨h1, h2⟩ := CartFeatures_single "U" "X" "a" (Float64.fin 2)
  refine ⟨h1, ?_⟩
  unfold overflow.cart
  rw [h2]
  simp only [Float64.add_def, Float64.div_def, Float64.zero_def, Float64.natCast_def,
    Float64.add, Float64.div, Float64.ofExact, Float64.maxFinite]
  norm_num

theorem overflow_scoreA : Similarity Float64.sqrt (CartFeatures overflow.cart) overflow.itemA.Features =
    Float64.fin (-1) := by
  rw [Similarity_single _ _ _ "a" overflow_user.1, overflow_user.2]
  simp only [overflow.itemA, GoMap.get_single]
  have h1 : (0 : Float64) + Float64.fin 2 ^ 2 = Float64.fin 4 := by
    simp only [Float64.add_def, Float64.pow_def, Float64.zero_def, Float64.pow, Float64.mul,
      Float64.add, Float64.ofExact, Float64.maxFinite]
    norm_num
  have h2 : (0 : Float64) + Float64.fin (-1) ^ 2 = Float64.fin 1 := by
    simp only [Float64.add_def, Float64.pow_def, Float64.zero_def, Float64.pow, Float64.mul,
      Float64.add, Float64.ofExact, Float64.maxFinite]
    norm_num
  rw [h1, h2, Float64.sqrt_four, Float64.sqrt_one]
  simp only [Float64.add_def, Float64.mul_def, Float64.div_def, Float64.zero_def,
    Float64.mul, Float64.add, Float64.div, Float64.ofExact, Float64.maxFinite]
  norm_num


theorem overflow_scoreB : Similarity Float64.sqrt (CartFeatures overflow.cart) overflow.itemB.Features =
    Float64.nan := by
  rw [Similarity_single _ _ _ "a" overflow_user.1, overflow_user.2]
  simp only [overflow.itemB, GoMap.get_single]
  have h1 : (0 : Float64) + Float64.fin 2 ^ 2 = Float64.fin 4 := by
    simp only [Float64.add_def, Float64.pow_def, Float64.zero_def, Float64.pow, Float64.mul,
      Float64.add, Float64.ofExact, Float64.maxFinite]
    norm_num
  have h2 : (0 : Float64) + Float64.fin (2 ^ 1023) ^ 2 = Float64.posInf := by
    simp only [Float64.add_def, Float64.pow_def, Float64.zero_def, Float64.pow, Float64.mul,
      Float64.add, Float64.ofExact, Float64.maxFinite]
    norm_num [Float64.add, Float64.mul, Float64.ofExact, Float64.maxFinite]
  have h3 : (0 : Float64) + Float64.fin 2 * Float64.fin (2 ^ 1023) = Float64.posInf := by
    simp only [Float64.add_def, Float64.mul_def, Float64.zero_def, Float64.mul,
      Float64.add, Float64.ofExact, Float64.maxFinite]
    norm_num [Float64.add]
  rw [h1, h2, h3, Float64.sqrt_four]
  simp [Float64.sqrt, Float64.mul_def, Float64.div_def, Float64.zero_def, Float64.mul,
    Float64.div]

theorem overflow_scoreC : Similarity Float64.sqrt (CartFeatures overflow.cart) overflow.itemC.Features =
    Float64.fin 1 := by
  rw [Similarity_single _ _ _ "a" overflow_user.1, overflow_user.2]
  simp only [overflow.itemC, GoMap.get_single]
  have h1 : (0 : Float64) + Float64.fin 2 ^ 2 = Float64.fin 4 := by
    simp only [Float64.add_def, Float64.pow_def, Float64.zero_def, Float64.pow, Float64.mul,
      Float64.add, Float64.ofExact, Float64.maxFinite]
    norm_num
  have h2 : (0 : Float64) + Float64.fin 1 ^ 2 = Float64.fin 1 := by
    simp only [Float64.add_def, Float64.pow_def, Float64.zero_def, Float64.pow, Float64.mul,
      Float64.add, Float64.ofExact, Float64.maxFinite]
    norm_num
  rw [h1, h2, Float64.sqrt_four, Float64.sqrt_one]
  simp only [Float64.add_def, Float64.mul_def, Float64.div_def, Float64.zero_def,
    Float64.mul, Float64.add, Float64.div, Float64.ofExact, Float64.maxFinite]
  norm_num

theorem overflow_candidates : candidates Float64.sqrt overflow.cart overflow.catalog =
    [⟨"A", Float64.fin (-1)⟩, ⟨"B", Float64.nan⟩, ⟨"C", Float64.fin 1⟩] := by
  have hA : contains overflow.cart.Items overflow.itemA.ID = false := by decide
  have hB : contains overflow.cart.Items overflow.itemB.ID = false := by decide
  have hC : contains overflow.cart.Items overflow.itemC.ID = false := by decide
  simp only [candidates, List.foldl, hA, hB, hC, overflow_scoreA, overflow_scoreB, overflow_scoreC]
  rfl

theorem overflow_top : FindTopSimilarItems (shortSliceEnv Float64.sqrt) overflow.cart overflow.catalog 1 =
    some [⟨"A", Float64.fin (-1)⟩] := by
  unfold FindTopSimilarItems
  have hs : (shortSliceEnv Float64.sqrt).sqrt = Float64.sqrt := rfl
  rw [hs, overflow_candidates]
  decide

theorem eq_some_getD {α : Type} (o : Option α) (d : α) (h : o.isSome = true) :
    o = some (o.getD d) := by
  cases o with
  | none => cases h
  | some a => rfl

end Lemmas

/-! ## The claims -/

section Claims

variable {F : Type} [LinearOrderedField F]

/-- C1 (conservation). In every state that an interleaving of the steps of the
distribution loop of `Run` and of the worker loops reaches, for every list of worker IDs
(so for every worker count) and every task list, the tasks resident in some deque, plus
the tasks a worker has popped and neither sent nor pushed back, plus the tasks whose
result has been sent, are as multisets exactly the tasks the distribution loop has
submitted so far (`tasks.take s.next`). From the end of the distribution loop on, which
is when the worker goroutines run, this is the multiset of all the tasks handed to `Run`:
no task is lost and none is duplicated. -/
theorem conservation (env : GoEnv F) (ids : List Int) (tasks : List (Task F))
    (content : List (Content F)) (s : RunState F) (h : Reachable env ids tasks content s) :
    resident s + inHand s + emitted s = ((tasks.take s.next : List (Task F)) : Multiset (Task F)) ∧
    (tasks.length ≤ s.next →
      resident s + inHand s + emitted s = ((tasks : List (Task F)) : Multiset (Task F))) := by
  have hinv := inv_of_reachable h
  refine ⟨hinv.conserve, fun hle => ?_⟩
  rw [hinv.conserve, List.take_of_length_le hle]

theorem conservation_witness :
    Reachable ratEnv main.ids main.tasks main.contents main.midState ∧
    main.midState.sent.map (fun e => e.task.ID) = [1, 4, 8, 12] ∧
    main.midState.pcs.map (fun pc => pc.inHand.map (fun t => t.ID)) = [[5], [], [], [13]] ∧
    main.midState.ws.Workers.map (fun w => w.Deque.items.map (fun t => t.ID)) =
      [[9], [2, 6, 10, 14], [3, 7, 11, 15], []] ∧
    (resident main.midState + inHand main.midState + emitted main.midState =
        (((main.tasks : List (Task ℚ)).take main.midState.next : List (Task ℚ)) :
          Multiset (Task ℚ)) ∧
      ((main.tasks : List (Task ℚ)).length ≤ main.midState.next →
        resident main.midState + inHand main.midState + emitted main.midState =
          ((main.tasks : List (Task ℚ)) : Multiset (Task ℚ)))) :=
  ⟨reachable_getD _ (by decide), by decide, by decide, by decide,
    conservation ratEnv main.ids main.tasks main.contents main.midState
      (reachable_getD _ (by decide))⟩

/-- C2 (completeness and uniqueness). For every worker count of at least one and every
task list with pairwise distinct IDs, in every reachable state in which the run has
finished (the distribution loop is over, every deque is empty and no task is in a
worker's hand) the task IDs of the results sent are a rearrangement of the submitted
IDs, so each submitted ID occurs exactly once, there are as many results as tasks, and
each result is the string `processTask` builds from its worker and task ID. For the
program of `main` (15 tasks with IDs 1 to 15 on 4 workers) every finished state has
exactly 15 results whose IDs are 1 to 15, each once, whatever the schedule. Such a
finished state is reached by some schedule whenever no call of `processTask` panics. -/
theorem completeness_uniqueness :
    (∀ (F : Type) [LinearOrderedField F] (env : GoEnv F) (ids : List Int) (tasks : List (Task F))
      (content : List (Content F)) (s : RunState F),
      1 ≤ ids.length → (tasks.map (fun t => t.ID)).Nodup →
      Reachable env ids tasks content s → finished tasks s = true →
        (s.sent.map (fun e => e.task.ID)).Perm (tasks.map (fun t => t.ID)) ∧
        (s.sent.map (fun e => e.task.ID)).Nodup ∧
        s.sent.length = tasks.length ∧
        ∀ e ∈ s.sent, e.value = Itoa e.worker ++ "Processing Task" ++ Itoa e.task.ID) ∧
    (∀ (F : Type) [LinearOrderedField F] (env : GoEnv F) (s : RunState F),
      Reachable env main.ids main.tasks main.contents s → finished main.tasks s = true →
        s.sent.length = 15 ∧
        (s.sent.map (fun e => e.task.ID)).Perm
          [1, 2, 3, 4, 5, 6, 7, 8, 9, 10, 11, 12, 13, 14, 15]) ∧
    (∀ (F : Type) [LinearOrderedField F] (env : GoEnv F) (ids : List Int) (tasks : List (Task F))
      (content : List (Content F)),
      1 ≤ ids.length →
      (∀ t ∈ tasks, ∀ id ∈ ids, (processTask env t id content).isSome = true) →
        ∃ s, Reachable env ids tasks content s ∧ finished tasks s = true ∧
          s.panicked = false) := by
  have key : ∀ (F : Type) [LinearOrderedField F] (env : GoEnv F) (ids : List Int)
      (tasks : List (Task F)) (content : List (Content F)) (s : RunState F),
      Reachable env ids tasks content s → finished tasks s = true →
      (s.sent.map (fun e => e.task.ID)).Perm (tasks.map (fun t => t.ID)) := by
    intro F _ env ids tasks content s h hfin
    have := (emitted_of_finished h hfin).map (fun t : Task F => t.ID)
    simpa [List.map_map, Function.comp_def] using this
  refine ⟨?_, ?_, ?_⟩
  · intro F _ env ids tasks content s _ hd h hfin
    have hperm := key F env ids tasks content s h hfin
    refine ⟨hperm, hperm.nodup_iff.2 hd, ?_, ?_⟩
    · simpa using hperm.length_eq
    · intro e he
      obtain ⟨_, printed, hp⟩ := sent_shape h e he
      exact processTask_value hp
  · intro F _ env s h hfin
    have hperm := key F env _ _ _ s h hfin
    rw [main_task_ids] at hperm
    exact ⟨by simpa using hperm.length_eq, hperm⟩
  · intro F _ env ids tasks content hn hok
    exact exists_finished hn hok

theorem completeness_uniqueness_witness :
    Reachable ratEnv main.ids main.tasks main.contents main.finalState ∧
    finished main.tasks main.finalState = true ∧
    ((main.finalState.sent.map (fun e => e.task.ID)).Perm
        ((main.tasks : List (Task ℚ)).map (fun t => t.ID)) ∧
      (main.finalState.sent.map (fun e => e.task.ID)).Nodup ∧
      main.finalState.sent.length = (main.tasks : List (Task ℚ)).length ∧
      ∀ e ∈ main.finalState.sent,
        e.value = Itoa e.worker ++ "Processing Task" ++ Itoa e.task.ID) ∧
    (main.finalState.sent.length = 15 ∧
      (main.finalState.sent.map (fun e => e.task.ID)).Perm
        [1, 2, 3, 4, 5, 6, 7, 8, 9, 10, 11, 12, 13, 14, 15]) ∧
    (∃ s, Reachable ratEnv main.ids main.tasks main.contents s ∧
      finished main.tasks s = true ∧ s.panicked = false) :=
  ⟨reachable_getD _ (by decide), by decide,
    completeness_uniqueness.1 ℚ ratEnv main.ids main.tasks main.contents main.finalState
      (by decide) (by rw [main_task_ids]; decide) (reachable_getD _ (by decide)) (by decide),
    completeness_uniqueness.2.1 ℚ ratEnv main.finalState (reachable_getD _ (by decide))
      (by decide),
    completeness_uniqueness.2.2 ℚ ratEnv main.ids main.tasks main.contents (by decide)
      (by decide)⟩

/-- C3 (round-robin distribution). For every worker count `n` of at least one and
every task list, the distribution loop of `Run`, started on workers with empty deques,
does not panic (no division by zero, no index outside the worker slice) and leaves the
worker IDs as they were; afterwards the deque of the worker at position `k` holds
exactly the tasks whose index `i` has `i % n = k`, front to back by increasing `i`; and
the deques together hold every task exactly once. -/
theorem round_robin_distribution (ids : List Int) (tasks : List (Task F))
    (hn : 1 ≤ ids.length) :
    ∃ ws1 : WorkStealingScheduler F,
      Run.distribute ⟨ids.map newWorker⟩ tasks = some ws1 ∧
      ws1.Workers.map (fun w => w.ID) = ids ∧
      (∀ k, k < ids.length → ∃ worker, ws1.Workers[k]? = some worker ∧
        worker.Deque.items =
          (tasks.enum.filter (fun p => decide (p.1 % ids.length = k))).map (fun p => p.2)) ∧
      (ws1.Workers.map (fun w => (w.Deque.items : Multiset (Task F)))).sum =
        (tasks : Multiset (Task F)) := by
  have hpos : 0 < (⟨ids.map newWorker⟩ : WorkStealingScheduler F).Workers.length := by
    simpa using hn
  obtain ⟨ws1, h1, hids, hsum, hdq⟩ := distributeFrom_spec tasks 0 ⟨ids.map newWorker⟩ hpos
  refine ⟨ws1, h1, ?_, ?_, ?_⟩
  · rw [hids]
    simp [newWorker, Function.comp_def]
  · intro k hk
    have hk0 : (ids.map (newWorker : Int → Worker F))[k]? = some (newWorker (ids[k])) := by
      simp [List.getElem?_eq_getElem hk]
    obtain ⟨worker1, hk1, hitems⟩ := hdq k _ hk0
    refine ⟨worker1, hk1, ?_⟩
    rw [hitems]
    simp [newWorker, List.enum]
  · rw [hsum]
    have h0 : ∀ l : List Int, ((l.map (newWorker : Int → Worker F)).map
        (fun w => (w.Deque.items : Multiset (Task F)))).sum = 0 := by
      intro l
      induction l with
      | nil => rfl
      | cons a l ih =>
        rw [List.map_cons, List.map_cons, List.sum_cons, ih]
        rfl
    rw [h0]
    simp

theorem round_robin_distribution_witness :
    1 ≤ main.ids.length ∧
    ∃ ws1 : WorkStealingScheduler ℚ,
      Run.distribute ⟨main.ids.map newWorker⟩ main.tasks = some ws1 ∧
      ws1.Workers.map (fun w => w.ID) = main.ids ∧
      (∀ k, k < main.ids.length → ∃ worker, ws1.Workers[k]? = some worker ∧
        worker.Deque.items =
          ((main.tasks : List (Task ℚ)).enum.filter
            (fun p => decide (p.1 % main.ids.length = k))).map (fun p => p.2)) ∧
      (ws1.Workers.map (fun w => (w.Deque.items : Multiset (Task ℚ)))).sum =
        ((main.tasks : List (Task ℚ)) : Multiset (Task ℚ)) :=
  ⟨by decide, round_robin_distribution main.ids main.tasks (by decide)⟩

/-- C4 (termination, refuted by the code). The loop of `workerProcessTasks` has no
exit: in every reachable state in which the distribution loop is over and no goroutine
has panicked, all the worker goroutines are still inside their loop, each at one of the
four positions of the loop body with its next statement enabled, also after all the
results have been sent. No worker ever returns, so `wg.Done()` is never called and
`wg.Wait()` in `Run` never completes. -/
theorem worker_loop_never_exits (env : GoEnv F) (ids : List Int) (tasks : List (Task F))
    (content : List (Content F)) (s : RunState F) (w : Nat)
    (h : Reachable env ids tasks content s) (hlive : s.panicked = false)
    (hdone : tasks.length ≤ s.next) (hw : w < ids.length) :
    s.pcs.length = ids.length ∧ ∃ pc, s.pcs[w]? = some pc ∧
      (pc = Pc.top → (step env tasks content (Action.popFront w) s).isSome = true) ∧
      (pc = Pc.seeking →
        ∀ v, v < ids.length → (step env tasks content (Action.steal w v) s).isSome = true) ∧
      (∀ t, pc = Pc.stolen t →
        (step env tasks content (Action.pushFront w) s).isSome = true) ∧
      (∀ t, pc = Pc.holding t →
        (step env tasks content (Action.send w) s).isSome = true) := by
  have hinv := inv_of_reachable h
  have hlen : s.ws.Workers.length = ids.length := by
    rw [← hinv.ids_eq, List.length_map]
  obtain ⟨pc, hpc⟩ : ∃ pc, s.pcs[w]? = some pc :=
    ⟨_, List.getElem?_eq_getElem (by rw [hinv.pcs_len]; exact hw)⟩
  obtain ⟨worker, hwk⟩ : ∃ wk, s.ws.Workers[w]? = some wk :=
    ⟨_, List.getElem?_eq_getElem (by rw [hlen]; exact hw)⟩
  refine ⟨hinv.pcs_len, pc, hpc, ?_, ?_, ?_, ?_⟩
  · rintro rfl
    rw [step_popFront_eq hlive hdone hpc hwk]
    cases worker.Deque.PopFront with
    | none => rfl
    | some p => rfl
  · rintro rfl v hv
    obtain ⟨other, hother⟩ : ∃ o, s.ws.Workers[v]? = some o :=
      ⟨_, List.getElem?_eq_getElem (by rw [hlen]; exact hv)⟩
    rw [step_steal_eq hlive hdone hpc hwk hother]
    split
    · cases other.Deque.PopBack with
      | none => rfl
      | some p => rfl
    · rfl
  · rintro t rfl
    rw [step_pushFront_eq hlive hdone hpc hwk]
    rfl
  · rintro t rfl
    rw [step_send_eq hlive hdone hpc hwk]
    cases processTask env t worker.ID content with
    | none => rfl
    | some p => rfl

theorem worker_loop_never_exits_witness :
    Reachable ratEnv main.ids main.tasks main.contents main.finalState ∧
    main.finalState.sent.length = 15 ∧
    main.finalState.pcs.length = main.ids.length ∧
    ∃ pc, main.finalState.pcs[0]? = some pc ∧
      (pc = Pc.top →
        (step ratEnv main.tasks main.contents (Action.popFront 0) main.finalState).isSome =
          true) ∧
      (pc = Pc.seeking → ∀ v, v < main.ids.length →
        (step ratEnv main.tasks main.contents (Action.steal 0 v) main.finalState).isSome =
          true) ∧
      (∀ t, pc = Pc.stolen t →
        (step ratEnv main.tasks main.contents (Action.pushFront 0) main.finalState).isSome =
          true) ∧
      (∀ t, pc = Pc.holding t →
        (step ratEnv main.tasks main.contents (Action.send 0) main.finalState).isSome =
          true) :=
  ⟨reachable_getD _ (by decide), by decide,
    worker_loop_never_exits ratEnv main.ids main.tasks main.contents main.finalState 0
      (reachable_getD _ (by decide)) (by decide) (by decide) (by decide)⟩

/-- C5 (single worker). With a pool of exactly one worker and any task list, in every
reachable state a steal attempt removes no item (the only index the worker can draw is
its own, the ID test fails, and the step changes neither a deque nor the results), the
worker never holds a stolen task, and the results come out in submission order: the
`k`-th result sent was sent by that worker and is the string
`processTask(t_k, worker.ID, content)` returns for the `k`-th submitted task. When no
call of `processTask` panics, some schedule reaches a finished state in which all the
results, as many as there are tasks, have been sent. -/
theorem single_worker_in_order (env : GoEnv F) (id : Int) (tasks : List (Task F))
    (content : List (Content F)) :
    (∀ s : RunState F, Reachable env [id] tasks content s →
      (∀ (w v : Nat) (s1 : RunState F),
        step env tasks content (Action.steal w v) s = some s1 →
          s1.ws = s.ws ∧ s1.pcs = [Pc.top] ∧ s1.sent = s.sent) ∧
      (∀ t, s.pcs ≠ [Pc.stolen t]) ∧
      (∀ (k : Nat) (e : Emission F), s.sent[k]? = some e →
        ∃ t printed, tasks[k]? = some t ∧ e.task = t ∧ e.worker = id ∧
          processTask env t id content = some (printed, e.value))) ∧
    ((∀ t ∈ tasks, (processTask env t id content).isSome = true) →
      ∃ s, Reachable env [id] tasks content s ∧ finished tasks s = true ∧
        s.sent.length = tasks.length) := by
  refine ⟨fun s h => ?_, fun hok => ?_⟩
  swap
  · obtain ⟨s, hs, hfin, _⟩ := @exists_finished F _ env [id] tasks content (le_refl 1)
      (fun t ht i hi => by
        rw [List.mem_singleton] at hi
        subst hi
        exact hok t ht)
    exact ⟨s, hs, hfin, by simpa using (emitted_of_finished hs hfin).length_eq⟩
  obtain ⟨pc, items, hpcs, hws, hns, hord⟩ := (inOrder_of_reachable h).shape
  refine ⟨?_, ?_, ?_⟩
  · intro w v s1 hst
    obtain ⟨_, _, hpc, worker, other, hw, hv, hcase⟩ := step_steal_inv hst
    rw [hpcs] at hpc
    rw [hws] at hw hv
    obtain ⟨rfl, rfl⟩ := singleton_getElem? hpc
    obtain ⟨_, rfl⟩ := singleton_getElem? hw
    obtain ⟨_, rfl⟩ := singleton_getElem? hv
    rcases hcase with ⟨hne, _⟩ | ⟨_, rfl⟩
    · exact absurd rfl hne
    · exact ⟨rfl, by simp [hpcs], rfl⟩
  · intro t ht
    rw [hpcs] at ht
    simp only [List.cons.injEq, and_true] at ht
    exact hns t ht
  · intro k e hk
    obtain ⟨hmem, printed, hp⟩ := sent_shape h e (List.mem_iff_getElem?.2 ⟨k, hk⟩)
    simp only [List.mem_singleton] at hmem
    have hklt : k < s.sent.length := (List.getElem?_eq_some.1 hk).1
    have h1 : (s.sent.map (fun e => e.task) ++ pc.inHand ++ items)[k]? = some e.task := by
      rw [List.append_assoc, List.getElem?_append_left (by simpa using hklt), List.getElem?_map, hk]
      rfl
    rw [hord, List.getElem?_take] at h1
    split at h1
    · exact ⟨e.task, printed, h1, rfl, hmem, hmem ▸ hp⟩
    · cases h1

theorem single_worker_in_order_witness :
    Reachable ratEnv [0] main.tasks main.contents single.finalState ∧
    single.finalState.sent.length = 15 ∧
    ((∀ (w v : Nat) (s1 : RunState ℚ),
        step ratEnv main.tasks main.contents (Action.steal w v) single.finalState = some s1 →
          s1.ws = single.finalState.ws ∧ s1.pcs = [Pc.top] ∧
            s1.sent = single.finalState.sent) ∧
      (∀ t, single.finalState.pcs ≠ [Pc.stolen t]) ∧
      (∀ (k : Nat) (e : Emission ℚ), single.finalState.sent[k]? = some e →
        ∃ t printed, (main.tasks : List (Task ℚ))[k]? = some t ∧ e.task = t ∧ e.worker = 0 ∧
          processTask ratEnv t 0 main.contents = some (printed, e.value))) :=
  ⟨reachable_getD _ (by decide), by decide,
    (single_worker_in_order ratEnv 0 main.tasks main.contents).1 single.finalState
      (reachable_getD _ (by decide))⟩

/-- C6 (a per-item failure is a result, refuted by the code). With an empty catalog
the slice `similarItems` is nil, the slice expression `similarItems[:3]` is out of range
and `FindTopSimilarItems` panics; so does `processTask`, for every task and every worker,
and nothing recovers the panic: in the program of `main` run on an empty catalog the
first send ends the run in the panicked state without a result. -/
theorem processTask_empty_catalog_panics :
    (∀ (F : Type) [LinearOrderedField F] (env : GoEnv F) (task : Task F) (workerId : Int),
      FindTopSimilarItems env task.Task [] 3 = none ∧
      processTask env task workerId [] = none) ∧
    (exec ratEnv main.tasks []
        (List.replicate 15 Action.distribute ++ [Action.popFront 0, Action.send 0])
        (initState main.ids)).map (fun s => (s.panicked, s.sent.length)) = some (true, 0) := by
  refine ⟨?_, by decide⟩
  intro F _ env task workerId
  have h : FindTopSimilarItems env task.Task [] 3 = none := by
    simp [FindTopSimilarItems, candidates_nil, sliceCap, sliceTo]
  exact ⟨h, by simp [processTask, h]⟩

/-- C7 (steal step, as amended). In every reachable state of a run that has not
panicked, a worker `w` that has found its own deque empty still has it empty, and for
every index `v` it can draw: the thief-end pop `PopBack` is called only when the IDs
differ, which implies `v ≠ w`, so never on its own deque; when the IDs are equal or the
victim's deque is empty, no deque changes and `w` returns to the head of its loop; and
when `PopBack` returns a task `t`, exactly `t` is removed from the back of the victim's
deque, every other deque is unchanged by the pop and `w` holds `t`. The `PushFront` of
`w` that follows makes `t` the sole content of the deque of `w` (that deque is still
empty whenever `w` holds a stolen task, whatever the other workers did meanwhile) and
changes no other deque. The next owner-end pop `PopFront` of `w` returns `t` provided
that between the push and that pop no other worker's steal attempt has drawn `w`:
whatever else the other workers do in between, the deque of `w` still holds exactly
`t`. -/
theorem steal_step (env : GoEnv F) (ids : List Int) (tasks : List (Task F))
    (content : List (Content F)) (s : RunState F) (w : Nat) (worker : Worker F)
    (h : Reachable env ids tasks content s) (hlive : s.panicked = false)
    (hw : s.ws.Workers[w]? = some worker) :
    (s.pcs[w]? = some Pc.seeking →
      worker.Deque.items = [] ∧
      ∀ v, v < s.ws.Workers.length →
        ∃ otherWorker s1, s.ws.Workers[v]? = some otherWorker ∧
          step env tasks content (Action.steal w v) s = some s1 ∧
          (otherWorker.ID ≠ worker.ID → v ≠ w) ∧
          (otherWorker.ID = worker.ID → s1 = { s with pcs := s.pcs.set w Pc.top }) ∧
          (otherWorker.ID ≠ worker.ID → otherWorker.Deque.PopBack = none →
            s1 = { s with pcs := s.pcs.set w Pc.top }) ∧
          ∀ t d, otherWorker.ID ≠ worker.ID → otherWorker.Deque.PopBack = some (t, d) →
            otherWorker.Deque.items = d.items ++ [t] ∧
            s1 = { s with
              ws := ⟨s.ws.Workers.set v { otherWorker with Deque := d }⟩
              pcs := s.pcs.set w (Pc.stolen t) } ∧
            step env tasks content (Action.pushFront w) s1 =
              some { s with
                ws := ⟨(s.ws.Workers.set v { otherWorker with Deque := d }).set w
                  { worker with Deque := ⟨[t]⟩ }⟩
                pcs := s.pcs.set w Pc.top } ∧
            exec env tasks content [Action.pushFront w, Action.popFront w] s1 =
              some { s with
                ws := ⟨(s.ws.Workers.set v { otherWorker with Deque := d }).set w
                  { worker with Deque := ⟨[]⟩ }⟩
                pcs := s.pcs.set w (Pc.holding t) }) ∧
    (∀ t, s.pcs[w]? = some (Pc.stolen t) →
      worker.Deque.items = [] ∧
      step env tasks content (Action.pushFront w) s =
        some { s with
          ws := ⟨s.ws.Workers.set w { worker with Deque := ⟨[t]⟩ }⟩
          pcs := s.pcs.set w Pc.top } ∧
      (⟨[t]⟩ : Deque (Task F)).PopFront = some (t, ⟨[]⟩)) ∧
    (∀ t, s.pcs[w]? = some (Pc.stolen t) →
      ∀ (acts : List Action) (s2 s3 : RunState F),
        step env tasks content (Action.pushFront w) s = some s2 →
        (∀ a ∈ acts, a.leaves w = true) →
        exec env tasks content acts s2 = some s3 → s3.panicked = false →
        s3.ws.Workers[w]? = some { worker with Deque := ⟨[t]⟩ } ∧
        ∃ s4, step env tasks content (Action.popFront w) s3 = some s4 ∧
          s4.pcs[w]? = some (Pc.holding t) ∧
          s4.ws.Workers[w]? = some { worker with Deque := ⟨[]⟩ }) := by
  have hinv := inv_of_reachable h
  have hpush : ∀ (s0 : RunState F) (wk : Worker F) (t : Task F), s0.panicked = false →
      tasks.length ≤ s0.next → s0.pcs[w]? = some (Pc.stolen t) →
      s0.ws.Workers[w]? = some wk → wk.Deque.items = [] →
      step env tasks content (Action.pushFront w) s0 =
        some { s0 with
          ws := ⟨s0.ws.Workers.set w { wk with Deque := ⟨[t]⟩ }⟩
          pcs := s0.pcs.set w Pc.top } := by
    intro s0 wk t hp hge hpc hwk hemp
    rw [step_pushFront_eq hp hge hpc hwk]
    simp [Deque.PushFront, hemp]
  refine ⟨?_, ?_, ?_⟩
  · intro hpc
    have hemp := hinv.empty_own w worker hw (Or.inl hpc)
    have hge := next_ge_of_pc hinv hpc (by simp)
    refine ⟨hemp, fun v hv => ?_⟩
    obtain ⟨otherWorker, hother⟩ : ∃ o, s.ws.Workers[v]? = some o :=
      ⟨_, List.getElem?_eq_getElem hv⟩
    have hstep := @step_steal_eq F _ env tasks content s w v worker otherWorker hlive hge hpc hw
      hother
    have hvw : otherWorker.ID ≠ worker.ID → v ≠ w := by
      rintro hne rfl
      rw [hw] at hother
      cases hother
      exact hne rfl
    by_cases hid : otherWorker.ID = worker.ID
    · rw [if_neg (by simpa using hid)] at hstep
      exact ⟨otherWorker, _, hother, hstep, hvw, fun _ => rfl, fun hne => absurd hid hne,
        fun _ _ hne => absurd hid hne⟩
    · rw [if_pos hid] at hstep
      cases hpop : otherWorker.Deque.PopBack with
      | none =>
        rw [hpop] at hstep
        exact ⟨otherWorker, _, hother, hstep, hvw, fun h1 => absurd h1 hid, fun _ _ => rfl,
          fun _ _ _ h1 => (by rw [hpop] at h1; cases h1)⟩
      | some p =>
        obtain ⟨t, d⟩ := p
        rw [hpop] at hstep
        refine ⟨otherWorker, _, hother, hstep, hvw, fun h1 => absurd h1 hid,
          fun _ h1 => (by rw [hpop] at h1; cases h1), ?_⟩
        intro t1 d1 _ h1
        rw [hpop] at h1
        simp only [Option.some.injEq, Prod.mk.injEq] at h1
        obtain ⟨rfl, rfl⟩ := h1
        have hpcw : (s.pcs.set w (Pc.stolen t))[w]? = some (Pc.stolen t) := getElem?_set_at hpc
        have hww : (s.ws.Workers.set v { otherWorker with Deque := d })[w]? = some worker := by
          rw [List.getElem?_set_ne (hvw hid), hw]
        have h2 := hpush { s with
              ws := ⟨s.ws.Workers.set v { otherWorker with Deque := d }⟩
              pcs := s.pcs.set w (Pc.stolen t) } worker t hlive hge hpcw hww hemp
        refine ⟨(Deque.PopBack_eq_some _ _ _).1 hpop, rfl, ?_, ?_⟩
        · rw [h2]
          simp
        · have h3 := @step_popFront_eq F _ env tasks content
            { s with
              ws := ⟨(s.ws.Workers.set v { otherWorker with Deque := d }).set w
                { worker with Deque := ⟨[t]⟩ }⟩
              pcs := (s.pcs.set w (Pc.stolen t)).set w Pc.top }
            w { worker with Deque := ⟨[t]⟩ } hlive hge (getElem?_set_at hpcw)
            (getElem?_set_at hww)
          simp only [exec, h2, h3]
          simp [Deque.PopFront]
  · intro t hpc
    have hemp := hinv.empty_own w worker hw (Or.inr ⟨t, hpc⟩)
    have hge := next_ge_of_pc hinv hpc (by simp)
    exact ⟨hemp, hpush s worker t hlive hge hpc hw hemp, rfl⟩
  · intro t hpc acts s2 s3 hst hall hex hlive3
    have hemp := hinv.empty_own w worker hw (Or.inr ⟨t, hpc⟩)
    have hge := next_ge_of_pc hinv hpc (by simp)
    rw [hpush s worker t hlive hge hpc hw hemp] at hst
    simp only [Option.some.injEq] at hst
    subst hst
    obtain ⟨h1, h2, h3⟩ := exec_leaves acts _ s3 hall hex
    have hw3 : s3.ws.Workers[w]? = some { worker with Deque := ⟨[t]⟩ } := by
      rw [h1]
      exact getElem?_set_at hw
    have hpc3 : s3.pcs[w]? = some Pc.top := by
      rw [h2]
      exact getElem?_set_at hpc
    have hge3 : tasks.length ≤ s3.next := by
      rw [h3]
      exact hge
    have hpop := @step_popFront_eq F _ env tasks content s3 w { worker with Deque := ⟨[t]⟩ }
      hlive3 hge3 hpc3 hw3
    refine ⟨hw3, _, hpop, ?_, ?_⟩
    · exact getElem?_set_at hpc3
    · exact getElem?_set_at hw3

/-- C7, counterexample to the claim as first stated. In the program of `main`, worker 3
finds its deque empty, draws worker 0, and `PopBack` returns task 13, which `PushFront`
makes the sole content of the deque of worker 3. Before worker 3 calls `PopFront`
again, worker 2 runs out of work, draws worker 3 and takes task 13 from its deque. The
next `PopFront` of worker 3 then reports empty (worker 3 is back at the steal attempt
with nothing in hand) and does not return the task, which is in the hand of worker
2. -/
theorem steal_step_counterexample :
    (exec ratEnv main.tasks main.contents main.stealSchedule (initState main.ids)).map
        RunState.view =
      some ([[9, 13], [2, 6, 10, 14], [3, 7, 11, 15], []],
        [("holding", [5]), ("top", []), ("top", []), ("seeking", [])]) ∧
    (exec ratEnv main.tasks main.contents (main.stealSchedule ++ [Action.steal 3 0])
        (initState main.ids)).map RunState.view =
      some ([[9], [2, 6, 10, 14], [3, 7, 11, 15], []],
        [("holding", [5]), ("top", []), ("top", []), ("stolen", [13])]) ∧
    (exec ratEnv main.tasks main.contents
        (main.stealSchedule ++ [Action.steal 3 0, Action.pushFront 3])
        (initState main.ids)).map RunState.view =
      some ([[9], [2, 6, 10, 14], [3, 7, 11, 15], [13]],
        [("holding", [5]), ("top", []), ("top", []), ("top", [])]) ∧
    (exec ratEnv main.tasks main.contents main.restealSchedule (initState main.ids)).map
        RunState.view =
      some ([[9], [2, 6, 10, 14], [], []],
        [("holding", [5]), ("top", []), ("stolen", [13]), ("top", [])]) ∧
    (exec ratEnv main.tasks main.contents (main.restealSchedule ++ [Action.popFront 3])
        (initState main.ids)).map RunState.view =
      some ([[9], [2, 6, 10, 14], [], []],
        [("holding", [5]), ("top", []), ("stolen", [13]), ("seeking", [])]) := by
  refine ⟨?_, ?_, ?_, ?_, ?_⟩ <;> decide

theorem steal_step_witness :
    Reachable ratEnv main.ids main.tasks main.contents main.stealState ∧
    main.stealState.panicked = false ∧
    main.stealState.ws.Workers.map (fun w => w.Deque.items.map (fun t => t.ID)) =
      [[9, 13], [2, 6, 10, 14], [3, 7, 11, 15], []] ∧
    (∃ otherWorker s1, main.stealState.ws.Workers[0]? = some otherWorker ∧
      step ratEnv main.tasks main.contents (Action.steal 3 0) main.stealState = some s1 ∧
      s1.ws.Workers.map (fun w => w.Deque.items.map (fun t => t.ID)) =
        [[9], [2, 6, 10, 14], [3, 7, 11, 15], []] ∧
      s1.pcs.map (fun pc => pc.inHand.map (fun t => t.ID)) = [[5], [], [], [13]]) ∧
    Reachable ratEnv main.ids main.tasks main.contents main.midState ∧
    main.midState.pcs[3]? = some (Pc.stolen main.task13) ∧
    step ratEnv main.tasks main.contents (Action.pushFront 3) main.midState =
      some main.pushedState ∧
    exec ratEnv main.tasks main.contents [Action.popFront 1, Action.send 1] main.pushedState =
      some main.laterState ∧
    main.laterState.view =
      ([[9], [6, 10, 14], [3, 7, 11, 15], [13]],
        [("holding", [5]), ("top", []), ("top", []), ("top", [])]) ∧
    (main.laterState.ws.Workers[3]? = some (⟨3, ⟨[main.task13]⟩⟩ : Worker ℚ) ∧
      ∃ s4, step ratEnv main.tasks main.contents (Action.popFront 3) main.laterState =
          some s4 ∧
        s4.pcs[3]? = some (Pc.holding main.task13) ∧
        s4.ws.Workers[3]? = some (⟨3, ⟨[]⟩⟩ : Worker ℚ)) :=
  ⟨reachable_getD _ (by decide), by decide, by decide,
    match ((steal_step ratEnv main.ids main.tasks main.contents main.stealState 3 (newWorker 3)
      (reachable_getD _ (by decide)) (by decide) (by rfl)).1 (by rfl)).2 0 (by decide) with
    | ⟨otherWorker, s1, h0, hstep, _, _, _, _⟩ =>
      ⟨otherWorker, s1, h0, hstep,
        by
          have h1 : (step ratEnv main.tasks main.contents (Action.steal 3 0)
              main.stealState).map
                (fun s => s.ws.Workers.map (fun w => w.Deque.items.map (fun t => t.ID))) =
              some [[9], [2, 6, 10, 14], [3, 7, 11, 15], []] := by decide
          rw [hstep] at h1
          simpa using h1,
        by
          have h1 : (step ratEnv main.tasks main.contents (Action.steal 3 0)
              main.stealState).map
                (fun s => s.pcs.map (fun pc => pc.inHand.map (fun t => t.ID))) =
              some [[5], [], [], [13]] := by decide
          rw [hstep] at h1
          simpa using h1⟩,
    reachable_getD _ (by decide), by rfl, eq_some_getD _ _ (by decide),
    eq_some_getD _ _ (by decide), by decide,
    (steal_step ratEnv main.ids main.tasks main.contents main.midState 3 (newWorker 3)
      (reachable_getD _ (by decide)) (by decide) (by rfl)).2.2 main.task13 (by rfl)
      [Action.popFront 1, Action.send 1] main.pushedState main.laterState
      (eq_some_getD _ _ (by decide)) (by decide) (eq_some_getD _ _ (by decide)) (by decide)⟩

/-- C8 (asymmetry of `Similarity`). Over the reals, with `math.Sqrt` read as the real
square root: there are feature maps on which `Similarity` differs when its arguments are
swapped, because both magnitudes are summed over the keys of the first argument only;
for `f1 = {a: 1}` and `f2 = {a: 1, b: 1}` it is 1 one way and `1 / sqrt 2` the other;
and on two maps with the same key set `Similarity` is symmetric. -/
theorem similarity_asymmetric :
    (∃ features1 features2 : GoMap ℝ,
      Similarity Real.sqrt features1 features2 ≠ Similarity Real.sqrt features2 features1) ∧
    (Similarity Real.sqrt (asymmetry.f1 : GoMap ℝ) asymmetry.f2 = 1 ∧
      Similarity Real.sqrt (asymmetry.f2 : GoMap ℝ) asymmetry.f1 = 1 / Real.sqrt 2) ∧
    (∀ features1 features2 : GoMap ℝ, features1.keys = features2.keys →
      Similarity Real.sqrt features1 features2 = Similarity Real.sqrt features2 features1) := by
  refine ⟨⟨asymmetry.f1, asymmetry.f2, ?_⟩, asymmetry_values, ?_⟩
  · rw [asymmetry_values.1, asymmetry_values.2]
    intro h
    have h2 : Real.sqrt 2 = 1 := by
      have hpos : Real.sqrt 2 ≠ 0 := by positivity
      rw [eq_div_iff hpos, one_mul] at h
      exact h
    have h3 : (2 : ℝ) = 1 := by
      have := Real.sq_sqrt (show (0 : ℝ) ≤ 2 by norm_num)
      rw [h2] at this
      linarith
    norm_num at h3
  · intro f1 f2 hk
    rw [Similarity_eq, Similarity_eq, ← hk]
    simp only [mul_comm (f2.get _) (f1.get _), or_comm,
      mul_comm (Real.sqrt (∑ k ∈ f1.keys, f2.get k ^ 2))]

theorem similarity_asymmetric_witness :
    (asymmetry.f2 : GoMap ℝ).keys = (asymmetry.g : GoMap ℝ).keys ∧
    Similarity Real.sqrt (asymmetry.f2 : GoMap ℝ) asymmetry.g =
      Similarity Real.sqrt (asymmetry.g : GoMap ℝ) asymmetry.f2 :=
  ⟨rfl, similarity_asymmetric.2.2 asymmetry.f2 asymmetry.g rfl⟩

/-- C10 (`Similarity` is total and bounded). Over the reals, with `math.Sqrt` read as
the real square root and a key missing from a map read as 0: both square roots are taken
of non-negative sums; `Similarity` is 0 whenever the sum of the squares of the values of
`features1`, or of `features2`, over the keys of `features1` is 0; otherwise the
division it performs has a non-zero denominator; and its value always lies between -1
and 1. -/
theorem similarity_bounded (features1 features2 : GoMap ℝ) :
    0 ≤ ∑ k ∈ features1.keys, features1.get k ^ 2 ∧
    0 ≤ ∑ k ∈ features1.keys, features2.get k ^ 2 ∧
    ((∑ k ∈ features1.keys, features1.get k ^ 2 = 0 ∨
        ∑ k ∈ features1.keys, features2.get k ^ 2 = 0) →
      Similarity Real.sqrt features1 features2 = 0) ∧
    ((∑ k ∈ features1.keys, features1.get k ^ 2 ≠ 0 ∧
        ∑ k ∈ features1.keys, features2.get k ^ 2 ≠ 0) →
      Real.sqrt (∑ k ∈ features1.keys, features1.get k ^ 2) *
          Real.sqrt (∑ k ∈ features1.keys, features2.get k ^ 2) ≠ 0 ∧
        Similarity Real.sqrt features1 features2 =
          (∑ k ∈ features1.keys, features1.get k * features2.get k) /
            (Real.sqrt (∑ k ∈ features1.keys, features1.get k ^ 2) *
              Real.sqrt (∑ k ∈ features1.keys, features2.get k ^ 2))) ∧
    -1 ≤ Similarity Real.sqrt features1 features2 ∧
    Similarity Real.sqrt features1 features2 ≤ 1 := by
  have h1 : 0 ≤ ∑ k ∈ features1.keys, features1.get k ^ 2 :=
    Finset.sum_nonneg (fun k _ => sq_nonneg _)
  have h2 : 0 ≤ ∑ k ∈ features1.keys, features2.get k ^ 2 :=
    Finset.sum_nonneg (fun k _ => sq_nonneg _)
  have hcs := Finset.sum_mul_sq_le_sq_mul_sq features1.keys
    (fun k => features1.get k) (fun k => features2.get k)
  simp only at hcs
  have habs : |∑ k ∈ features1.keys, features1.get k * features2.get k| ≤
      Real.sqrt (∑ k ∈ features1.keys, features1.get k ^ 2) *
        Real.sqrt (∑ k ∈ features1.keys, features2.get k ^ 2) := by
    rw [← Real.sqrt_mul h1, ← Real.sqrt_sq_eq_abs]
    exact Real.sqrt_le_sqrt hcs
  refine ⟨h1, h2, ?_, ?_, ?_⟩
  · intro h0
    rw [Similarity_eq, if_pos]
    rcases h0 with h0 | h0
    · left; rw [h0, Real.sqrt_zero]
    · right; rw [h0, Real.sqrt_zero]
  · rintro ⟨hn1, hn2⟩
    have hs1 : Real.sqrt (∑ k ∈ features1.keys, features1.get k ^ 2) ≠ 0 := by
      rw [Ne, Real.sqrt_eq_zero h1]; exact hn1
    have hs2 : Real.sqrt (∑ k ∈ features1.keys, features2.get k ^ 2) ≠ 0 := by
      rw [Ne, Real.sqrt_eq_zero h2]; exact hn2
    refine ⟨mul_ne_zero hs1 hs2, ?_⟩
    rw [Similarity_eq, if_neg]
    rintro (h | h)
    · exact hs1 h
    · exact hs2 h
  · rw [← abs_le, Similarity_eq]
    split
    · simp
    · rename_i hne
      simp only [not_or] at hne
      have hpos : 0 < Real.sqrt (∑ k ∈ features1.keys, features1.get k ^ 2) *
          Real.sqrt (∑ k ∈ features1.keys, features2.get k ^ 2) :=
        mul_pos (lt_of_le_of_ne (Real.sqrt_nonneg _) (Ne.symm hne.1))
          (lt_of_le_of_ne (Real.sqrt_nonneg _) (Ne.symm hne.2))
      rw [abs_div, abs_of_pos hpos, div_le_one hpos]
      exact habs

end Claims

end Recommend
